import Mathlib

/-!
Verification of the VSAC ValueSet download/upload pipeline of the
ComplyLight server CLI (the `valueset` subcommand and its helper
functions `normalizeVsacId`, `fetchValueSetExpansion`,
`mergeExpansionPages`, `deriveVsacVersion`, `postValueSetsToHapi`,
and the bounded-concurrency worker loop `next`).

The TypeScript source is embedded shallowly: network traffic is an
oracle assigning a response to each attempt index, the page cache is a
function from cache keys to optional pages, cooperative concurrency is
a small-step state machine driven by an explicit schedule, and every
side effect (cache read/write, network call, sleep, file write, POST)
is recorded in an event trace.
-/

namespace ComplyLight

/-- JavaScript `a || b` on an optional string: `b` when `a` is absent or
empty (the empty string is falsy in JavaScript). -/
def jsOrS : Option String → String → String
  | none, d => d
  | some s, d => if s = "" then d else s

/-- A FHIR ValueSet resource (either a definition, one page of an
expansion, or a merged expansion), keeping the fields the CLI reads:
`id`, `version`, `expansion.contains`, `expansion.total`,
`expansion.identifier`. -/
structure VSRes where
  rid : String
  version : Option String
  expContains : List String
  expTotal : Option Nat
  expIdentifier : Option String
deriving DecidableEq, Repr

/-- Outcome of one HTTP attempt: a successful FHIR payload, an HTTP
error response with a status code, or a network-level error with no
response object. -/
inductive Resp where
  | ok (p : VSRes)
  | http (status : Nat)
  | netErr
deriving DecidableEq, Repr

/-- Errors thrown by `fetchValueSetExpansion`: the literal
`Failed to fetch expansion after N retries.` message (which records only
the configured retry count), the `No expansion page fetched.` message,
or a rethrown transport error. -/
inductive FetchErr where
  | retryExhausted (retry : Nat)
  | noPage
  | http (status : Nat)
  | netErr
deriving DecidableEq, Repr

/-- Key of one cache file `vsac-<oid>-<version-or-latest>-page-<offset>.json`. -/
structure CacheKey where
  oid : String
  version : String
  offset : Nat
deriving DecidableEq, Repr

/-- `opts.version || 'latest'` used when building the cache file name. -/
def versionOrLatest (v : Option String) : String := jsOrS v "latest"

/-- The query parameters of one `$expand` request URL
(`offset`, `count`, optional `valueSetVersion`, optional `filter`). -/
structure ReqUrl where
  oid : String
  offset : Nat
  count : Nat
  version : Option String
  filter : Option String
deriving DecidableEq, Repr

/-- Response of one POST to the downstream HAPI server. -/
inductive PostResp where
  | ok (status : Nat)
  | fail (msg : String)
deriving DecidableEq, Repr

/-- Observable side effects of a run, in program order. -/
inductive Ev where
  | cacheHit (k : CacheKey)
  | cacheMiss (k : CacheKey)
  | netCall (url : ReqUrl) (r : Resp)
  | defCall (oid : String) (version : Option String) (r : Resp)
  | sleep (ms : Nat)
  | cacheWrite (k : CacheKey) (p : VSRes)
  | pushPage (offset : Nat) (p : VSRes)
  | mergedEv (r : VSRes)
  | fileWrite (path : String) (r : VSRes)
  | postCall (target : String) (payload : List VSRes) (r : PostResp)
  | dryPostLog (target : String)
deriving DecidableEq, Repr

/-- Options of one expansion fetch, mirroring the `opts` argument of
`fetchValueSetExpansion` (`cacheEnabled` stands for `opts.cacheDir`
being set). -/
structure FetchCfg where
  oid : String
  version : Option String
  filter : Option String
  count : Nat
  cacheEnabled : Bool
  dryRun : Bool
  retry : Nat
deriving DecidableEq, Repr

/-- Cache-file key for the current page request. -/
def cacheKeyFor (cfg : FetchCfg) (offset : Nat) : CacheKey :=
  ⟨cfg.oid, versionOrLatest cfg.version, offset⟩

/-- Request URL for the current page request. -/
def urlFor (cfg : FetchCfg) (offset : Nat) : ReqUrl :=
  ⟨cfg.oid, offset, cfg.count, cfg.version, cfg.filter⟩

/-- `(e.response && e.response.status >= 500) || e.response?.status === 429`:
the transient-failure classes that the retry loop retries. -/
def retryable : Resp → Bool
  | .http s => (500 ≤ s) || (s == 429)
  | _ => false

end ComplyLight

namespace ComplyLight

/-- Result of the inner retry loop of `fetchValueSetExpansion`:
`success` leaves the loop with a page (after writing it to the cache
when caching is enabled), `fatal` rethrows a non-retryable error, and
`exhausted` falls out of the `while (tries < retry)` loop with `page`
still undefined.  Each constructor carries the updated shared retry
counter `tries`, the next network-attempt index `ctr`, and the events
emitted. -/
inductive RetryOut where
  | success (p : VSRes) (tries ctr : Nat) (cache : CacheKey → Option VSRes) (evs : List Ev)
  | fatal (e : FetchErr) (tries ctr : Nat) (evs : List Ev)
  | exhausted (tries ctr : Nat) (evs : List Ev)

/-- Prefix the event trace of a retry-loop outcome (used when a loop
iteration has already emitted its failed attempt and its sleep). -/
def RetryOut.prependEvs (pre : List Ev) : RetryOut → RetryOut
  | .success p t c cc evs => .success p t c cc (pre ++ evs)
  | .fatal e t c evs => .fatal e t c (pre ++ evs)
  | .exhausted t c evs => .exhausted t c (pre ++ evs)

/-- The inner `while (tries < opts.retry)` loop: one recursive step per
iteration, with `fuel = retry - tries` iterations available.  On a
successful GET the page is written to the cache file (when caching is
enabled) before the loop is left; on a retryable failure the shared
`tries` counter is incremented and the loop sleeps
`1000 * 2 ^ tries` ms; any other failure is rethrown at once. -/
def retryLoop (oracle : Nat → Resp) (cfg : FetchCfg) (offset : Nat)
    (cache : CacheKey → Option VSRes) : Nat → Nat → Nat → RetryOut
  | 0, tries, ctr => .exhausted tries ctr []
  | fuel + 1, tries, ctr =>
    match oracle ctr with
    | .ok p =>
      if cfg.cacheEnabled then
        .success p tries (ctr + 1)
          (fun k => if k = cacheKeyFor cfg offset then some p else cache k)
          [.netCall (urlFor cfg offset) (.ok p), .cacheWrite (cacheKeyFor cfg offset) p]
      else
        .success p tries (ctr + 1) cache [.netCall (urlFor cfg offset) (.ok p)]
    | .http s =>
      if (500 ≤ s) || (s == 429) then
        (retryLoop oracle cfg offset cache fuel (tries + 1) (ctr + 1)).prependEvs
          [.netCall (urlFor cfg offset) (.http s), .sleep (1000 * 2 ^ (tries + 1))]
      else
        .fatal (.http s) tries (ctr + 1) [.netCall (urlFor cfg offset) (.http s)]
    | .netErr => .fatal .netErr tries (ctr + 1) [.netCall (urlFor cfg offset) .netErr]

/-- Obtaining the page for the current offset: the cache file is
consulted first (when caching is enabled); on a miss, in dry-run mode no
page is produced (`No expansion page fetched.`), otherwise the retry
loop runs with the remaining shared budget `retry - tries` and its
exhaustion becomes `Failed to fetch expansion after N retries.`. -/
def getPage (oracle : Nat → Resp) (cfg : FetchCfg) (offset tries ctr : Nat)
    (cache : CacheKey → Option VSRes) :
    Except (FetchErr × Nat × Nat × List Ev)
      (VSRes × Nat × Nat × (CacheKey → Option VSRes) × List Ev) :=
  let k := cacheKeyFor cfg offset
  match (if cfg.cacheEnabled then cache k else none) with
  | some p => .ok (p, tries, ctr, cache, [.cacheHit k])
  | none =>
    let missEvs := if cfg.cacheEnabled then [Ev.cacheMiss k] else []
    if cfg.dryRun then .error (.noPage, tries, ctr, missEvs)
    else
      match retryLoop oracle cfg offset cache (cfg.retry - tries) tries ctr with
      | .success p t c cc evs => .ok (p, t, c, cc, missEvs ++ evs)
      | .fatal e t c evs => .error (e, t, c, missEvs ++ evs)
      | .exhausted t c evs => .error (.retryExhausted cfg.retry, t, c, missEvs ++ evs)

/-- `if (!contains || !total || got >= total) break;` — with JavaScript
falsiness: an absent total and a total of `0` both stop the loop. -/
def breakCond (contains got : Nat) (total : Option Nat) : Bool :=
  (contains == 0) ||
    (match total with
     | none => true
     | some t => (t == 0) || (t ≤ got))

/-- Final state of one expansion fetch: the pages (or the thrown
error), the cache after all writes, the event trace, and the final
shared counters. -/
structure FetchRes where
  out : Except FetchErr (List VSRes)
  cache : CacheKey → Option VSRes
  evs : List Ev
  tries : Nat
  ctr : Nat

/-- The outer `while (true)` pagination loop of
`fetchValueSetExpansion`, with explicit fuel (the source loop can spin
forever against an adversarial server, so divergence is `none`).
Arguments after the fuel mirror the mutable locals:
current `offset`, cumulative `got`, accumulated `pages`, shared
`tries`, attempt counter, and the cache. -/
def fetchLoop (oracle : Nat → Resp) (cfg : FetchCfg) :
    Nat → Nat → Nat → List VSRes → Nat → Nat → (CacheKey → Option VSRes) →
    Option FetchRes
  | 0, _, _, _, _, _, _ => none
  | fuel + 1, offset, got, acc, tries, ctr, cache =>
    match getPage oracle cfg offset tries ctr cache with
    | .error (e, t, c, evs) => some ⟨.error e, cache, evs, t, c⟩
    | .ok (p, t, c, cache', evs0) =>
      let contains := p.expContains.length
      let got' := got + contains
      if breakCond contains got' p.expTotal then
        some ⟨.ok (acc ++ [p]), cache', evs0 ++ [Ev.pushPage offset p], t, c⟩
      else
        match fetchLoop oracle cfg fuel (offset + contains) got' (acc ++ [p]) t c cache' with
        | none => none
        | some r => some ⟨r.out, r.cache, (evs0 ++ [Ev.pushPage offset p]) ++ r.evs, r.tries, r.ctr⟩

/-- `fetchValueSetExpansion(client, oid, opts)`:
`offset = 0, pages = [], got = 0, tries = 0` and then the pagination
loop. -/
def fetchValueSetExpansion (oracle : Nat → Resp) (cfg : FetchCfg)
    (cache : CacheKey → Option VSRes) (fuel : Nat) : Option FetchRes :=
  fetchLoop oracle cfg fuel 0 0 [] 0 0 cache

end ComplyLight

namespace ComplyLight

/-- `normalizeVsacId`'s regular expression `[0-9]+\.[0-9.]+` attempted
at the start of the given character list: a nonempty run of digits,
a literal dot, then a nonempty greedy run of digits-or-dots. -/
def matchAt (l : List Char) : Option (List Char) :=
  let g := l.takeWhile Char.isDigit
  let r := l.dropWhile Char.isDigit
  if g.isEmpty then none
  else
    match r with
    | '.' :: r2 =>
      let t := r2.takeWhile (fun c => c.isDigit || c == '.')
      if t.isEmpty then none else some (g ++ '.' :: t)
    | _ => none

/-- Leftmost match of `[0-9]+\.[0-9.]+` in the character list, as found
by `String.prototype.match`. -/
def firstMatch : List Char → Option (List Char)
  | [] => none
  | c :: r =>
    match matchAt (c :: r) with
    | some m => some m
    | none => firstMatch r

/-- `normalizeVsacId(id)`: returns the leftmost `[0-9]+\.[0-9.]+` match
of the input, or throws `Could not extract OID from '<id>'`. -/
def normalizeVsacId (s : String) : Except String String :=
  match firstMatch s.data with
  | some m => .ok (String.mk m)
  | none => .error ("Could not extract OID from '" ++ s ++ "'")

/-- Specification-side automaton for the spec's dotted-numeric pattern
`digit+ ('.' digit+)+` (digit groups separated by single dots, at least
one dot), matching the ENTIRE list.  States: 0 initial, 1 inside the
first group, 2 just after a dot, 3 inside a later group (accepting). -/
def dottedGo : List Char → Nat → Bool
  | [], st => st == 3
  | c :: r, 0 => c.isDigit && dottedGo r 1
  | c :: r, 1 => (c.isDigit && dottedGo r 1) || ((c == '.') && dottedGo r 2)
  | c :: r, 2 => c.isDigit && dottedGo r 3
  | c :: r, 3 => (c.isDigit && dottedGo r 3) || ((c == '.') && dottedGo r 2)
  | _ :: _, _ + 4 => false

/-- Modelled from the spec: a dotted-numeric string is one or more
digit groups separated by single dots, with at least one dot. -/
def dottedNumericB (l : List Char) : Bool := dottedGo l 0

/-- Modelled from the spec: the input contains a dotted-numeric
substring somewhere. -/
def containsDottedB (l : List Char) : Bool :=
  l.tails.any (fun t => t.inits.any (fun u => dottedNumericB u))

end ComplyLight

namespace ComplyLight

/-- `mergeExpansionPages(pages)`: throws on an empty page list,
otherwise copies the first page and replaces `expansion.contains` with
the concatenation of every page's `contains` (absent `contains` arrays
contribute nothing). -/
def mergeExpansionPages (pages : List VSRes) : Except String VSRes :=
  match pages with
  | [] => .error "No expansion pages to merge."
  | p :: _ => .ok { p with expContains := pages.flatMap (·.expContains) }

/-- `deriveVsacVersion(resource)`:
`resource.version || resource.expansion?.identifier || 'unknown'`. -/
def deriveVsacVersion (r : VSRes) : String :=
  jsOrS r.version (jsOrS r.expIdentifier "unknown")

/-- `writeValueSetFiles(outDir, oid, version, data, mode)`: the file
write at `<outDir>/ValueSet-<oid>-<safeVersion>-<mode>.json`, recorded
as an event. -/
def writeValueSetFiles (outDir oid version : String) (data : VSRes) (mode : String) : Ev :=
  .fileWrite (outDir ++ "/ValueSet-" ++ oid ++ "-" ++ jsOrS (some version) "unknown"
    ++ "-" ++ mode ++ ".json") data

/-- Error message attached to a thrown transport error
(`e.message` as seen by the per-job catch). -/
def fetchErrMsg : FetchErr → String
  | .retryExhausted n => "Failed to fetch expansion after " ++ toString n ++ " retries."
  | .noPage => "No expansion page fetched."
  | .http s => "Request failed with status code " ++ toString s
  | .netErr => "Network Error"

/-- `fetchValueSetDefinition(client, oid, version)`: a single GET with
no cache and no retry; a transport failure is thrown to the caller. -/
def fetchValueSetDefinition (defOracle : Resp) (oid : String) (version : Option String) :
    Except String VSRes × List Ev :=
  match defOracle with
  | .ok p => (.ok p, [.defCall oid version (.ok p)])
  | .http s => (.error (fetchErrMsg (.http s)), [.defCall oid version (.http s)])
  | .netErr => (.error (fetchErrMsg .netErr), [.defCall oid version .netErr])

/-- Dry-run stub for a definition:
`{ resourceType: 'ValueSet', id: oid, version: opts.version || 'unknown' }`. -/
def stubDef (oid : String) (version : Option String) : VSRes :=
  ⟨oid, some (jsOrS version "unknown"), [], none, none⟩

/-- Dry-run stub page for an expansion: the definition stub with
`expansion: { contains: [] }`. -/
def stubExp (oid : String) (version : Option String) : VSRes :=
  ⟨oid, some (jsOrS version "unknown"), [], none, none⟩

/-- `--mode` of the `valueset` command. -/
inductive Mode where
  | definition
  | expansion
  | both
deriving DecidableEq, Repr

/-- Per-run options of the `valueset` command that the per-job pipeline
reads. -/
structure JobOpts where
  mode : Mode
  version : Option String
  filter : Option String
  out : String
  count : Nat
  cacheEnabled : Bool
  dryRun : Bool
  retry : Nat
deriving DecidableEq, Repr

/-- The `FetchCfg` the job passes to `fetchValueSetExpansion`. -/
def fetchCfgOf (opts : JobOpts) (oid : String) : FetchCfg :=
  ⟨oid, opts.version, opts.filter, opts.count, opts.cacheEnabled, opts.dryRun, opts.retry⟩

/-- Success payload stored into `results[myIdx]`
(`{ oid, defRes, expRes, version }`). -/
structure JobSuccess where
  oid : String
  defRes : Option VSRes
  expRes : Option VSRes
  version : Option String
deriving DecidableEq, Repr

/-- Output of one job: the success payload or the caught error message,
the events emitted, and the cache after the job. -/
structure JobOut where
  res : Except String JobSuccess
  evs : List Ev
  cache : CacheKey → Option VSRes

/-- The body of the `try` block of one worker iteration (lines 270-284
of the CLI): normalize, optionally fetch/stub the definition and write
its file, optionally fetch/stub the expansion pages, merge them and
write the merged file.  `none` is the (fuel-exhaustion) model of the
pagination loop diverging. -/
def runJob (defOracle : Resp) (oracle : Nat → Resp) (opts : JobOpts)
    (cache : CacheKey → Option VSRes) (fuel : Nat) (id : String) : Option JobOut :=
  match normalizeVsacId id with
  | .error msg => some ⟨.error msg, [], cache⟩
  | .ok oid =>
    -- definition stage
    let defStage : Except String (Option VSRes × Option String) × List Ev :=
      if opts.mode = .definition ∨ opts.mode = .both then
        let fetched : Except String VSRes × List Ev :=
          if opts.dryRun then (.ok (stubDef oid opts.version), [])
          else fetchValueSetDefinition defOracle oid opts.version
        match fetched with
        | (.error msg, evs) => (.error msg, evs)
        | (.ok defRes, evs) =>
          let v := jsOrS (some (deriveVsacVersion defRes)) (jsOrS opts.version "unknown")
          (.ok (some defRes, some v),
            evs ++ [writeValueSetFiles opts.out oid v defRes "definition"])
      else (.ok (none, none), [])
    match defStage with
    | (.error msg, defEvs) => some ⟨.error msg, defEvs, cache⟩
    | (.ok (defRes, versionForName), defEvs) =>
      if opts.mode = .expansion ∨ opts.mode = .both then
        let pagesRes : Option (Except FetchErr (List VSRes) × (CacheKey → Option VSRes) × List Ev) :=
          if opts.dryRun then some (.ok [stubExp oid opts.version], cache, [])
          else
            match fetchValueSetExpansion oracle (fetchCfgOf opts oid) cache fuel with
            | none => none
            | some r => some (r.out, r.cache, r.evs)
        match pagesRes with
        | none => none
        | some (.error e, cache', fevs) => some ⟨.error (fetchErrMsg e), defEvs ++ fevs, cache'⟩
        | some (.ok pages, cache', fevs) =>
          match mergeExpansionPages pages with
          | .error msg => some ⟨.error msg, defEvs ++ fevs, cache'⟩
          | .ok merged =>
            let v := jsOrS (some (deriveVsacVersion merged))
              (jsOrS versionForName (jsOrS opts.version "unknown"))
            some ⟨.ok ⟨oid, defRes, some merged, some v⟩,
              defEvs ++ fevs ++ [Ev.mergedEv merged,
                writeValueSetFiles opts.out oid v merged "expanded"],
              cache'⟩
      else
        some ⟨.ok ⟨oid, defRes, none, versionForName⟩, defEvs, cache⟩

/-- `baseUrl.replace(/\/?$/, '/ValueSet')`: an optional trailing slash
is replaced by `/ValueSet`. -/
def postTarget (baseUrl : String) : String :=
  (if baseUrl.data.getLast? = some '/' then String.mk baseUrl.data.dropLast else baseUrl)
    ++ "/ValueSet"

/-- The per-resource upload loop of `postValueSetsToHapi`: each
resource is POSTed in order; in dry-run mode only a log line is
emitted; a failed POST is NOT caught and rejects the whole call,
leaving the remaining resources unsubmitted. -/
def postEach (oracle : Nat → PostResp) (baseUrl : String) (dryRun : Bool) :
    List VSRes → Nat → Except String Unit × List Ev
  | [], _ => (.ok (), [])
  | r :: rest, i =>
    if dryRun then
      let (out, evs) := postEach oracle baseUrl dryRun rest i
      (out, .dryPostLog baseUrl :: evs)
    else
      match oracle i with
      | .ok s =>
        let (out, evs) := postEach oracle baseUrl dryRun rest (i + 1)
        (out, .postCall (postTarget baseUrl) [r] (.ok s) :: evs)
      | .fail m => (.error m, [.postCall (postTarget baseUrl) [r] (.fail m)])

/-- `postValueSetsToHapi(baseUrl, resources, opts)`: in bundled mode
one transaction Bundle is POSTed in a single call (dry-run logs
instead); otherwise the per-resource loop runs. -/
def postValueSetsToHapi (oracle : Nat → PostResp) (baseUrl : String)
    (resources : List VSRes) (bundleFlag dryRun : Bool) : Except String Unit × List Ev :=
  if bundleFlag then
    if dryRun then (.ok (), [.dryPostLog baseUrl])
    else
      match oracle 0 with
      | .ok s => (.ok (), [.postCall baseUrl resources (.ok s)])
      | .fail m => (.error m, [.postCall baseUrl resources (.fail m)])
  else
    postEach oracle baseUrl dryRun resources 0

/-- `true` for a successful POST response. -/
def isOkPost : PostResp → Bool
  | .ok _ => true
  | .fail _ => false

/-- Payloads of the POST calls of a trace, in order. -/
def postPayloads (evs : List Ev) : List (List VSRes) :=
  evs.filterMap (fun e => match e with | .postCall _ pl _ => some pl | _ => none)

end ComplyLight

namespace ComplyLight

/-- State of one cooperative worker of the `valueset` scheduler:
waiting to call `next()`, running the job it claimed via `idx++`, or
returned because `idx >= ids.length`. -/
inductive WStatus where
  | idle
  | working (j : Nat)
  | finished
deriving DecidableEq, Repr

/-- A `JobResult` slot of the `results` array: either the success
payload or `{ oid: id, error: e.message }` from the per-job catch. -/
structure JobResult where
  oid : String
  defRes : Option VSRes := none
  expRes : Option VSRes := none
  version : Option String := none
  error : Option String := none
deriving DecidableEq, Repr

/-- The per-job catch of the worker loop: a pipeline error becomes a
recorded `JobResult` with `oid` set to the raw input identifier. -/
def jobResultOf (rawId : String) : Except String JobSuccess → JobResult
  | .ok su => { oid := su.oid, defRes := su.defRes, expRes := su.expRes, version := su.version }
  | .error e => { oid := rawId, error := some e }

/-- Shared state of the cooperative scheduler: the shared cursor `idx`,
the worker coroutines, the `results` array, the order in which job
indices were claimed, and the `completed` counter. -/
structure SchedState where
  nextIdx : Nat
  workers : List WStatus
  results : List (Option JobResult)
  claimsLog : List Nat
  completed : Nat
deriving DecidableEq, Repr

/-- Initial scheduler state:
`Array(Math.min(concurrency, ids.length)).fill(0).map(() => next())`
spawns exactly `min N n` workers, all about to claim. -/
def initState (n N : Nat) : SchedState :=
  ⟨0, List.replicate (min N n) .idle, List.replicate n none, [], 0⟩

/-- One cooperative step of worker `w`.  An idle worker runs the
synchronous prefix of `next()`: the atomic claim-and-advance
`myIdx = idx++` (or returns when `idx >= ids.length`).  A working
worker finishes its job: the `try`/`catch` writes
`results[myIdx]` and the completion counter advances.  A finished
worker does nothing. -/
def step (n : Nat) (outcome : Nat → JobResult) (s : SchedState) (w : Nat) : SchedState :=
  match s.workers[w]? with
  | none => s
  | some .idle =>
    if s.nextIdx < n then
      { s with workers := s.workers.set w (.working s.nextIdx),
               nextIdx := s.nextIdx + 1,
               claimsLog := s.claimsLog ++ [s.nextIdx] }
    else { s with workers := s.workers.set w .finished }
  | some (.working j) =>
    { s with workers := s.workers.set w .idle,
             results := s.results.set j (some (outcome j)),
             completed := s.completed + 1 }
  | some .finished => s

/-- Run the scheduler under an explicit cooperative schedule (the order
in which the single-threaded event loop resumes workers). -/
def exec (n : Nat) (outcome : Nat → JobResult) : List Nat → SchedState → SchedState
  | [], s => s
  | w :: ws, s => exec n outcome ws (step n outcome s w)

/-- Number of jobs currently in flight. -/
def countWorking (ws : List WStatus) : Nat :=
  ws.countP (fun st => match st with | .working _ => true | _ => false)

/-- Every worker has returned from its `next()` chain. -/
def terminal (s : SchedState) : Prop :=
  ∀ st ∈ s.workers, st = .finished

instance (s : SchedState) : Decidable (terminal s) := by
  unfold terminal; infer_instance

/-- Run-end summary printed by the `valueset` command. -/
structure Summary where
  processed : Nat
  downloaded : Nat
  errors : Nat
deriving DecidableEq, Repr

/-- `results.filter(r => !r.error).length` and
`results.filter(r => r.error).length` over the final results array. -/
def summaryOf (n : Nat) (results : List (Option JobResult)) : Summary :=
  ⟨n,
   results.countP (fun r => match r with | some jr => jr.error.isNone | none => false),
   results.countP (fun r => match r with | some jr => jr.error.isSome | none => false)⟩

/-- The `valueset` action around the scheduler: a missing UMLS key is
thrown before any job starts (caught by the outer handler, which exits
with code 1); otherwise the scheduler runs to its final state and the
summary is printed. -/
def valuesetAction (key : Option String) (n N : Nat) (outcome : Nat → JobResult)
    (sched : List Nat) : Except String (SchedState × Summary) :=
  match key with
  | none => .error "Missing UMLS API key. Set --umls-key or UMLS_API_KEY."
  | some _ =>
    let s := exec n outcome sched (initState n N)
    .ok (s, summaryOf n s.results)

/-- Exit code of the process: 1 when the outer catch ran, 0 otherwise. -/
def exitCodeOf : Except String (SchedState × Summary) → Nat
  | .error _ => 1
  | .ok _ => 0

end ComplyLight

namespace ComplyLight

/-- Projection of an optional fetch result onto its pages-or-error
component (the cache function is dropped so the value has decidable
equality). -/
def fetchOut (r : Option FetchRes) : Option (Except FetchErr (List VSRes)) :=
  r.map (·.out)

/-- Projection of an optional fetch result onto its event trace. -/
def fetchEvsOf (r : Option FetchRes) : Option (List Ev) :=
  r.map (·.evs)

/-- Network attempts in a trace aimed at the page at `offset`. -/
def attemptsAt (offset : Nat) (evs : List Ev) : Nat :=
  evs.countP (fun e => match e with | .netCall u _ => u.offset == offset | _ => false)

/-- Network-traffic events (expansion GET, definition GET, or POST). -/
def isNetEv : Ev → Bool
  | .netCall _ _ => true
  | .defCall _ _ _ => true
  | .postCall _ _ _ => true
  | _ => false

/-- Cache-file writes. -/
def isCacheWriteEv : Ev → Bool
  | .cacheWrite _ _ => true
  | _ => false

/-- Output-file writes. -/
def isFileWriteEv : Ev → Bool
  | .fileWrite _ _ => true
  | _ => false

end ComplyLight

namespace ComplyLight

/-- Modelled from the spec, for claim C1: the only admissible stop
conditions are a zero-item page or a cumulative count reaching a
DECLARED total; an absent total is not a stop condition. -/
def claimStopB (p : VSRes) (got : Nat) : Bool :=
  p.expContains.isEmpty ||
    (match p.expTotal with
     | some t => t ≤ got
     | none => false)

/-- Offsets at which pages were requested and pushed, in trace order. -/
def pushedOffsets (evs : List Ev) : List Nat :=
  evs.filterMap (fun e => match e with | .pushPage o _ => some o | _ => none)

/-- The offset sequence the pagination loop generates from a start
offset: each page advances the offset by its own item count. -/
def offsetsFrom (offset : Nat) : List VSRes → List Nat
  | [] => []
  | p :: rest => offset :: offsetsFrom (offset + p.expContains.length) rest

/-- The source's literal stop discipline over a returned page sequence:
every page before the last fails `breakCond` (so the loop continued)
and the last page satisfies it (so the loop broke), with the cumulative
item count threaded through. -/
def stopSpecB (got : Nat) : List VSRes → Bool
  | [] => false
  | [p] => breakCond p.expContains.length (got + p.expContains.length) p.expTotal
  | p :: rest =>
    !(breakCond p.expContains.length (got + p.expContains.length) p.expTotal) &&
      stopSpecB (got + p.expContains.length) rest

/-- `true` for a pipeline outcome that completed without throwing. -/
def exceptOk {α : Type} : Except String α → Bool
  | .ok _ => true
  | .error _ => false

/-- Sleep durations of a trace, in order. -/
def sleepsOf (evs : List Ev) : List Nat :=
  evs.filterMap (fun e => match e with | .sleep ms => some ms | _ => none)

/-- Number of network attempts in a trace. -/
def netCallCount (evs : List Ev) : Nat :=
  evs.countP (fun e => match e with | .netCall _ _ => true | _ => false)

/-- Events of a retry-loop outcome. -/
def retryOutEvs : RetryOut → List Ev
  | .success _ _ _ _ evs => evs
  | .fatal _ _ _ evs => evs
  | .exhausted _ _ evs => evs

/-- Final shared `tries` counter of a retry-loop outcome. -/
def retryOutTries : RetryOut → Nat
  | .success _ t _ _ _ => t
  | .fatal _ t _ _ => t
  | .exhausted t _ _ => t

/-- Inductive invariant of the cooperative scheduler: the cursor never
passes the job count, the worker and result arrays keep their sizes,
the claims log is exactly the cursor's history, a working worker holds
a claimed-but-unfilled job, no two workers hold the same job, every
claimed job is either filled with its outcome or held by some worker,
filled slots hold exactly their job's outcome, and a finished worker
exists only once the cursor has passed the last job. -/
structure SchedInv (n : Nat) (outcome : Nat → JobResult) (W : Nat)
    (s : SchedState) : Prop where
  hnext : s.nextIdx ≤ n
  hwlen : s.workers.length = W
  hrlen : s.results.length = n
  hclaims : s.claimsLog = List.range s.nextIdx
  hwork_lt : ∀ (w j : Nat), s.workers[w]? = some (WStatus.working j) → j < s.nextIdx
  hwork_res : ∀ (w j : Nat), s.workers[w]? = some (WStatus.working j) →
    s.results[j]? = some none
  hdistinct : ∀ (w1 w2 j : Nat), s.workers[w1]? = some (WStatus.working j) →
    s.workers[w2]? = some (WStatus.working j) → w1 = w2
  hcover : ∀ j : Nat, j < s.nextIdx →
    s.results[j]? = some (some (outcome j)) ∨
      ∃ w : Nat, s.workers[w]? = some (WStatus.working j)
  hres : ∀ (j : Nat) (r : JobResult), s.results[j]? = some (some r) →
    j < s.nextIdx ∧ r = outcome j
  hfin : ∀ w : Nat, s.workers[w]? = some WStatus.finished → n ≤ s.nextIdx

theorem takeWhile_append_all {p : Char → Bool} :
    ∀ (xs ys : List Char), (∀ c ∈ xs, p c = true) →
      (∀ h, ys.head? = some h → p h = false) →
      (xs ++ ys).takeWhile p = xs ∧ (xs ++ ys).dropWhile p = ys := by
  intro xs
  induction xs with
  | nil =>
    intro ys _ hy
    cases ys with
    | nil => simp
    | cons h t =>
      have hh := hy h rfl
      simp [List.takeWhile_cons, List.dropWhile_cons, hh]
  | cons x xs ih =>
    intro ys hx hy
    have hpx : p x = true := hx x (by simp)
    have hrec := ih ys (fun c hc => hx c (by simp [hc])) hy
    simp [List.takeWhile_cons, List.dropWhile_cons, hpx, hrec.1, hrec.2]

theorem dottedGo_two_three :
    ∀ l : List Char,
      (dottedGo l 2 = true → l ≠ [] ∧ ∀ c ∈ l, c.isDigit ∨ c = '.') ∧
      (dottedGo l 3 = true → ∀ c ∈ l, c.isDigit ∨ c = '.') := by
  intro l
  induction l with
  | nil =>
    refine ⟨fun h => ?_, fun _ c hc => absurd hc (by simp)⟩
    simp [dottedGo] at h
  | cons c r ih =>
    refine ⟨fun h => ?_, fun h x hx => ?_⟩
    · simp only [dottedGo, Bool.and_eq_true] at h
      refine ⟨by simp, fun x hx => ?_⟩
      rcases List.mem_cons.mp hx with h1 | h2
      · exact Or.inl (h1 ▸ h.1)
      · exact ih.2 h.2 x h2
    · simp only [dottedGo, Bool.or_eq_true, Bool.and_eq_true, beq_iff_eq] at h
      rcases h with ⟨hd, hr⟩ | ⟨hdot, hr⟩
      · rcases List.mem_cons.mp hx with h1 | h2
        · exact Or.inl (h1 ▸ hd)
        · exact ih.2 hr x h2
      · rcases List.mem_cons.mp hx with h1 | h2
        · exact Or.inr (h1.trans hdot)
        · exact (ih.1 hr).2 x h2

theorem dottedGo_one :
    ∀ l : List Char, dottedGo l 1 = true →
      ∃ g rest, l = g ++ '.' :: rest ∧ (∀ c ∈ g, c.isDigit) ∧ rest ≠ [] ∧
        (∀ c ∈ rest, c.isDigit ∨ c = '.') := by
  intro l
  induction l with
  | nil => intro h; simp [dottedGo] at h
  | cons c r ih =>
    intro h
    simp only [dottedGo, Bool.or_eq_true, Bool.and_eq_true, beq_iff_eq] at h
    rcases h with ⟨hd, hr⟩ | ⟨hdot, hr⟩
    · obtain ⟨g, rest, hsp, hg, hne, hall⟩ := ih hr
      refine ⟨c :: g, rest, by simp [hsp], ?_, hne, hall⟩
      intro x hx
      rcases List.mem_cons.mp hx with h1 | h2
      · exact h1 ▸ hd
      · exact hg x h2
    · have h23 := (dottedGo_two_three r).1 hr
      refine ⟨[], r, by simp [hdot], ?_, h23.1, h23.2⟩
      intro x hx
      exact absurd hx (by simp)

/-- Structure of a dotted-numeric string: a nonempty digit run, a dot,
then a nonempty tail of digits and dots. -/
theorem dottedNumericB_decomp (d : List Char) (hd : dottedNumericB d = true) :
    ∃ g rest, d = g ++ '.' :: rest ∧ g ≠ [] ∧ (∀ c ∈ g, c.isDigit) ∧ rest ≠ [] ∧
      (∀ c ∈ rest, c.isDigit ∨ c = '.') := by
  cases d with
  | nil => simp [dottedNumericB, dottedGo] at hd
  | cons c r =>
    simp only [dottedNumericB, dottedGo, Bool.and_eq_true] at hd
    obtain ⟨g, rest, hsp, hg, hne, hall⟩ := dottedGo_one r hd.2
    refine ⟨c :: g, rest, by simp [hsp], by simp, ?_, hne, hall⟩
    intro x hx
    rcases List.mem_cons.mp hx with h1 | h2
    · exact h1 ▸ hd.1
    · exact hg x h2

theorem firstMatch_cons_nondigit (c : Char) (l : List Char) (hc : c.isDigit = false) :
    firstMatch (c :: l) = firstMatch l := by
  have hta : (c :: l).takeWhile Char.isDigit = [] := by
    simp [List.takeWhile_cons, hc]
  simp only [firstMatch, matchAt, hta]
  simp

theorem firstMatch_nondigit_prefix (p l : List Char) (hp : ∀ c ∈ p, c.isDigit = false) :
    firstMatch (p ++ l) = firstMatch l := by
  induction p with
  | nil => simp
  | cons c p ih =>
    have hc := hp c (by simp)
    rw [List.cons_append, firstMatch_cons_nondigit c (p ++ l) hc]
    exact ih (fun x hx => hp x (by simp [hx]))

theorem matchAt_dotted (d q : List Char) (hd : dottedNumericB d = true)
    (hq : ∀ h, q.head? = some h → (h.isDigit || h == '.') = false) :
    matchAt (d ++ q) = some d := by
  obtain ⟨g, rest, hsplit, hgne, hgdig, hrne, hrall⟩ := dottedNumericB_decomp d hd
  have hdotnd : ('.' : Char).isDigit = false := by decide
  have h1 : (d ++ q).takeWhile Char.isDigit = g ∧
      (d ++ q).dropWhile Char.isDigit = '.' :: (rest ++ q) := by
    have := takeWhile_append_all g ('.' :: (rest ++ q))
      (fun c hc => hgdig c hc) (by intro h hh; simp at hh; rw [← hh]; exact hdotnd)
    rw [hsplit]
    simpa using this
  have h2 : (rest ++ q).takeWhile (fun c => c.isDigit || c == '.') = rest := by
    have := takeWhile_append_all (p := fun c => c.isDigit || c == '.') rest q
      (by intro c hc
          rcases hrall c hc with h | h
          · simp [h]
          · simp [h])
      hq
    exact this.1
  simp only [matchAt, h1.1, h1.2, h2]
  have hgne' : g.isEmpty = false := by
    cases g with | nil => exact absurd rfl hgne | cons _ _ => rfl
  have hrne' : rest.isEmpty = false := by
    cases rest with | nil => exact absurd rfl hrne | cons _ _ => rfl
  simp [hgne', hrne', hsplit]

theorem firstMatch_dotted (d q : List Char) (hd : dottedNumericB d = true)
    (hq : ∀ h, q.head? = some h → (h.isDigit || h == '.') = false) :
    firstMatch (d ++ q) = some d := by
  have hma := matchAt_dotted d q hd hq
  cases d with
  | nil => simp [dottedNumericB, dottedGo] at hd
  | cons x xs =>
    have hform : (x :: xs) ++ q = x :: (xs ++ q) := by simp
    rw [hform] at hma ⊢
    simp [firstMatch, hma]

theorem firstMatch_none_of_no_digit :
    ∀ l : List Char, (∀ c ∈ l, c.isDigit = false) → firstMatch l = none := by
  intro l
  induction l with
  | nil => intro _; rfl
  | cons c r ih =>
    intro h
    rw [firstMatch_cons_nondigit c r (h c (by simp))]
    exact ih (fun x hx => h x (by simp [hx]))

/-- C8, counterexample: the input `x1..5` contains no dotted-numeric
substring (digit groups separated by single dots), so per the claim the
normalizer must fail with `InvalidIdentifier`; yet `normalizeVsacId`
returns `1..5` — the regex `[0-9]+\.[0-9.]+` also matches runs with
consecutive dots, and its result is not even dotted-numeric. -/
theorem c8_counterexample :
    normalizeVsacId "x1..5" = .ok "1..5" ∧
    containsDottedB ("x1..5".data) = false ∧
    dottedNumericB ("1..5".data) = false :=
  ⟨rfl, by decide, by decide⟩

/-- C8, amended: when the input decomposes as a digit-free character
sequence, followed by a dotted-numeric substring, followed by a
character sequence that does not start with a digit or a dot, the
normalizer returns exactly that dotted-numeric substring (this covers
bare OIDs, `urn:oid:` prefixes and canonical URLs whose only digits are
the OID); and an input containing no digit at all fails with the
`Could not extract OID` error.  (On inputs whose leftmost
`[0-9]+\.[0-9.]+` match is not dotted-numeric — consecutive or trailing
dots — the source returns that malformed match instead, see the
counterexample.) -/
theorem c8_normalizer_amended :
    (∀ p d q : List Char,
        (∀ c ∈ p, c.isDigit = false) →
        dottedNumericB d = true →
        (∀ h, q.head? = some h → (h.isDigit || h == '.') = false) →
        normalizeVsacId (String.mk (p ++ d ++ q)) = .ok (String.mk d)) ∧
    (∀ s : String, (∀ c ∈ s.data, c.isDigit = false) →
        normalizeVsacId s = .error ("Could not extract OID from '" ++ s ++ "'")) := by
  constructor
  · intro p d q hp hd hq
    have h1 : firstMatch (p ++ (d ++ q)) = firstMatch (d ++ q) :=
      firstMatch_nondigit_prefix p (d ++ q) hp
    have h2 : firstMatch (d ++ q) = some d := firstMatch_dotted d q hd hq
    have : (String.mk (p ++ d ++ q)).data = p ++ (d ++ q) := by simp
    simp [normalizeVsacId, this, h1, h2]
  · intro s hs
    simp [normalizeVsacId, firstMatch_none_of_no_digit s.data hs]

/-- C8 witness: the amended theorem applied to the spec's own example
`urn:oid:2.16.840.1.113883.3.464.1003.110.12.1001`, and to a digit-free
input. -/
theorem c8_witness :
    normalizeVsacId
        (String.mk ("urn:oid:".data ++ "2.16.840.1.113883.3.464.1003.110.12.1001".data ++ [])) =
      .ok (String.mk "2.16.840.1.113883.3.464.1003.110.12.1001".data) ∧
    normalizeVsacId "abc" = .error ("Could not extract OID from '" ++ "abc" ++ "'") :=
  ⟨c8_normalizer_amended.1 ("urn:oid:".data)
      ("2.16.840.1.113883.3.464.1003.110.12.1001".data) [] (by decide) (by decide)
      (by intro h hh; simp at hh),
   c8_normalizer_amended.2 "abc" (by decide)⟩

theorem postEach_all_ok (oracle : Nat → PostResp) (b : String) :
    ∀ (res : List VSRes) (i : Nat), (∀ j, j < res.length → isOkPost (oracle (i + j)) = true) →
      (postEach oracle b false res i).1 = .ok () ∧
      postPayloads (postEach oracle b false res i).2 = res.map (fun r => [r]) := by
  intro res
  induction res with
  | nil => intro i _; exact ⟨rfl, rfl⟩
  | cons r rest ih =>
    intro i h
    have h0 : isOkPost (oracle i) = true := by simpa using h 0 (by simp)
    obtain ⟨s, hs⟩ : ∃ s, oracle i = .ok s := by
      cases ho : oracle i with
      | ok s => exact ⟨s, rfl⟩
      | fail m => rw [ho] at h0; simp [isOkPost] at h0
    have hrec := ih (i + 1) (by
      intro j hj
      have := h (j + 1) (by simpa using hj)
      rwa [show i + (j + 1) = i + 1 + j by omega] at this)
    refine ⟨?_, ?_⟩
    · simp only [postEach, hs]
      simpa using hrec.1
    · simp only [postEach, hs]
      simpa [postPayloads] using hrec.2

theorem postEach_first_fail (oracle : Nat → PostResp) (b : String) :
    ∀ (res : List VSRes) (i k : Nat) (m : String), k < res.length →
      (∀ j, j < k → isOkPost (oracle (i + j)) = true) →
      oracle (i + k) = .fail m →
      (postEach oracle b false res i).1 = .error m ∧
      postPayloads (postEach oracle b false res i).2 =
        (res.take (k + 1)).map (fun r => [r]) := by
  intro res
  induction res with
  | nil => intro i k m hk _ _; exact absurd hk (by simp)
  | cons r rest ih =>
    intro i k m hk hok hfail
    cases k with
    | zero =>
      have hf : oracle i = .fail m := by simpa using hfail
      refine ⟨?_, ?_⟩
      · simp [postEach, hf]
      · simp [postEach, hf, postPayloads]
    | succ k' =>
      have h0 : isOkPost (oracle i) = true := by simpa using hok 0 (by simp)
      obtain ⟨s, hs⟩ : ∃ s, oracle i = .ok s := by
        cases ho : oracle i with
        | ok s => exact ⟨s, rfl⟩
        | fail mm => rw [ho] at h0; simp [isOkPost] at h0
      have hrec := ih (i + 1) k' m (by simpa using hk)
        (by
          intro j hj
          have := hok (j + 1) (by simpa using hj)
          rwa [show i + (j + 1) = i + 1 + j by omega] at this)
        (by rwa [show i + 1 + k' = i + (k' + 1) by omega])
      refine ⟨?_, ?_⟩
      · simp only [postEach, hs]
        simpa using hrec.1
      · simp only [postEach, hs]
        simpa [postPayloads] using hrec.2

/-- C2, counterexample: in per-resource mode, a failed submission of
the first resource is NOT caught inside `postValueSetsToHapi` — the
whole call rejects with that error and the second resource is never
submitted (one single POST event), contradicting the claim that
individual failures are caught and logged without aborting the
remaining uploads. -/
theorem c2_counterexample :
    (postValueSetsToHapi (fun _ => .fail "boom") "http://h"
      [⟨"a", none, [], none, none⟩, ⟨"b", none, [], none, none⟩] false false).1 =
        .error "boom" ∧
    (postValueSetsToHapi (fun _ => .fail "boom") "http://h"
      [⟨"a", none, [], none, none⟩, ⟨"b", none, [], none, none⟩] false false).2 =
      [.postCall "http://h/ValueSet" [⟨"a", none, [], none, none⟩] (.fail "boom")] :=
  ⟨rfl, by decide⟩

/-- C2, amended: in bundled mode all resources go in one transaction
Bundle submitted as a single call whose failure fails the entire batch;
in per-resource mode each resource is submitted as an independent
sequential call, but a failed submission is NOT caught — it rejects the
whole upload stage, the remaining resources are never submitted, and
the error propagates to the caller. -/
theorem c2_upload_amended :
    (∀ (oracle : Nat → PostResp) (b : String) (res : List VSRes) (s : Nat),
        oracle 0 = .ok s →
        postValueSetsToHapi oracle b res true false =
          (.ok (), [.postCall b res (.ok s)])) ∧
    (∀ (oracle : Nat → PostResp) (b : String) (res : List VSRes) (m : String),
        oracle 0 = .fail m →
        postValueSetsToHapi oracle b res true false =
          (.error m, [.postCall b res (.fail m)])) ∧
    (∀ (oracle : Nat → PostResp) (b : String) (res : List VSRes),
        (∀ j, j < res.length → isOkPost (oracle j) = true) →
        (postValueSetsToHapi oracle b res false false).1 = .ok () ∧
        postPayloads (postValueSetsToHapi oracle b res false false).2 =
          res.map (fun r => [r])) ∧
    (∀ (oracle : Nat → PostResp) (b : String) (res : List VSRes) (k : Nat) (m : String),
        k < res.length →
        (∀ j, j < k → isOkPost (oracle j) = true) →
        oracle k = .fail m →
        (postValueSetsToHapi oracle b res false false).1 = .error m ∧
        postPayloads (postValueSetsToHapi oracle b res false false).2 =
          (res.take (k + 1)).map (fun r => [r])) := by
  refine ⟨?_, ?_, ?_, ?_⟩
  · intro oracle b res s hs
    simp [postValueSetsToHapi, hs]
  · intro oracle b res m hm
    simp [postValueSetsToHapi, hm]
  · intro oracle b res hok
    have := postEach_all_ok oracle b res 0 (by simpa using hok)
    simpa [postValueSetsToHapi] using this
  · intro oracle b res k m hk hok hf
    have := postEach_first_fail oracle b res 0 k m hk (by simpa using hok) (by simpa using hf)
    simpa [postValueSetsToHapi] using this

/-- C2 witness: the amended theorem at concrete inputs — a successful
and a failing bundled upload, a fully successful per-resource upload,
and a per-resource upload failing on its second resource. -/
theorem c2_witness :
    (postValueSetsToHapi (fun _ => .ok 201) "u" [⟨"a", none, [], none, none⟩] true false =
      (.ok (), [.postCall "u" [⟨"a", none, [], none, none⟩] (.ok 201)])) ∧
    (postValueSetsToHapi (fun _ => .fail "e") "u" [⟨"a", none, [], none, none⟩] true false =
      (.error "e", [.postCall "u" [⟨"a", none, [], none, none⟩] (.fail "e")])) ∧
    ((postValueSetsToHapi (fun _ => .ok 200) "u"
        [⟨"a", none, [], none, none⟩, ⟨"b", none, [], none, none⟩] false false).1 = .ok () ∧
      postPayloads (postValueSetsToHapi (fun _ => .ok 200) "u"
        [⟨"a", none, [], none, none⟩, ⟨"b", none, [], none, none⟩] false false).2 =
        [⟨"a", none, [], none, none⟩, ⟨"b", none, [], none, none⟩].map (fun r => [r])) ∧
    ((postValueSetsToHapi (fun i => if i = 0 then .ok 200 else .fail "e2") "u"
        [⟨"a", none, [], none, none⟩, ⟨"b", none, [], none, none⟩] false false).1 =
          .error "e2" ∧
      postPayloads (postValueSetsToHapi (fun i => if i = 0 then .ok 200 else .fail "e2") "u"
        [⟨"a", none, [], none, none⟩, ⟨"b", none, [], none, none⟩] false false).2 =
        ([⟨"a", none, [], none, none⟩, ⟨"b", none, [], none, none⟩].take 2).map
          (fun r => [r])) :=
  ⟨c2_upload_amended.1 (fun _ => .ok 201) "u" [⟨"a", none, [], none, none⟩] 201 rfl,
   c2_upload_amended.2.1 (fun _ => .fail "e") "u" [⟨"a", none, [], none, none⟩] "e" rfl,
   c2_upload_amended.2.2.1 (fun _ => .ok 200) "u"
     [⟨"a", none, [], none, none⟩, ⟨"b", none, [], none, none⟩]
     (by intro j hj; rfl),
   c2_upload_amended.2.2.2 (fun i => if i = 0 then .ok 200 else .fail "e2") "u"
     [⟨"a", none, [], none, none⟩, ⟨"b", none, [], none, none⟩] 1 "e2"
     (by decide) (by intro j hj; interval_cases j; rfl) rfl⟩

theorem retryOutEvs_prependEvs (pre : List Ev) (o : RetryOut) :
    retryOutEvs (o.prependEvs pre) = pre ++ retryOutEvs o := by
  cases o <;> rfl

theorem retryOutTries_prependEvs (pre : List Ev) (o : RetryOut) :
    retryOutTries (o.prependEvs pre) = retryOutTries o := by
  cases o <;> rfl

theorem range_map_pow_shift (base tries m : Nat) :
    (List.range (m + 1)).map (fun i => base * 2 ^ (tries + 1 + i)) =
      base * 2 ^ (tries + 1) ::
        (List.range m).map (fun i => base * 2 ^ (tries + 1 + 1 + i)) := by
  rw [List.range_succ_eq_map, List.map_cons, List.map_map]
  have hfun : (fun i => base * 2 ^ (tries + 1 + i)) ∘ Nat.succ =
      fun i => base * 2 ^ (tries + 1 + 1 + i) := by
    funext i
    simp only [Function.comp, Nat.succ_eq_add_one]
    have he : tries + 1 + (i + 1) = tries + 1 + 1 + i := by omega
    rw [he]
  rw [hfun]

theorem sleepsOf_append (l1 l2 : List Ev) :
    sleepsOf (l1 ++ l2) = sleepsOf l1 ++ sleepsOf l2 := by
  simp [sleepsOf]

theorem netCallCount_append (l1 l2 : List Ev) :
    netCallCount (l1 ++ l2) = netCallCount l1 + netCallCount l2 := by
  simp [netCallCount, List.countP_append]

theorem retryLoop_all_retryable (oracle : Nat → Resp) (cfg : FetchCfg) (offset : Nat)
    (cache : CacheKey → Option VSRes) :
    ∀ (fuel tries ctr : Nat), (∀ i, i < fuel → retryable (oracle (ctr + i)) = true) →
      ∃ evs, retryLoop oracle cfg offset cache fuel tries ctr =
        .exhausted (tries + fuel) (ctr + fuel) evs := by
  intro fuel
  induction fuel with
  | zero => intro tries ctr _; exact ⟨[], by simp [retryLoop]⟩
  | succ f ih =>
    intro tries ctr h
    have h0 : retryable (oracle ctr) = true := by simpa using h 0 (by simp)
    cases ho : oracle ctr with
    | ok p => rw [ho] at h0; simp [retryable] at h0
    | netErr => rw [ho] at h0; simp [retryable] at h0
    | http s =>
      rw [ho] at h0
      have hcond : (decide (500 ≤ s) || (s == 429)) = true := by
        simpa [retryable] using h0
      obtain ⟨evs, he⟩ := ih (tries + 1) (ctr + 1) (by
        intro i hi
        have := h (i + 1) (by omega)
        rwa [show ctr + (i + 1) = ctr + 1 + i by omega] at this)
      refine ⟨[.netCall (urlFor cfg offset) (.http s), .sleep (1000 * 2 ^ (tries + 1))] ++ evs, ?_⟩
      have h1 : tries + 1 + f = tries + (f + 1) := by omega
      have h2 : ctr + 1 + f = ctr + (f + 1) := by omega
      simp only [retryLoop, ho, hcond, if_true, he, RetryOut.prependEvs, h1, h2]

theorem retryLoop_trace (oracle : Nat → Resp) (cfg : FetchCfg) (offset : Nat)
    (cache : CacheKey → Option VSRes) :
    ∀ (fuel tries ctr : Nat),
      ∃ m, m ≤ fuel ∧
        (∀ i, i < m → retryable (oracle (ctr + i)) = true) ∧
        sleepsOf (retryOutEvs (retryLoop oracle cfg offset cache fuel tries ctr)) =
          (List.range m).map (fun i => 1000 * 2 ^ (tries + 1 + i)) ∧
        netCallCount (retryOutEvs (retryLoop oracle cfg offset cache fuel tries ctr)) ≤ fuel ∧
        retryOutTries (retryLoop oracle cfg offset cache fuel tries ctr) = tries + m := by
  intro fuel
  induction fuel with
  | zero =>
    intro tries ctr
    exact ⟨0, by simp, by simp, by simp [retryLoop, retryOutEvs, sleepsOf],
      by simp [retryLoop, retryOutEvs, netCallCount], by simp [retryLoop, retryOutTries]⟩
  | succ f ih =>
    intro tries ctr
    cases ho : oracle ctr with
    | ok p =>
      refine ⟨0, by simp, by simp, ?_, ?_, ?_⟩ <;>
        cases hce : cfg.cacheEnabled <;>
          simp [retryLoop, ho, hce, retryOutEvs, sleepsOf, netCallCount, retryOutTries]
    | netErr =>
      exact ⟨0, by simp, by simp,
        by simp [retryLoop, ho, retryOutEvs, sleepsOf],
        by simp [retryLoop, ho, retryOutEvs, netCallCount],
        by simp [retryLoop, ho, retryOutTries]⟩
    | http s =>
      by_cases hcond : (decide (500 ≤ s) || (s == 429)) = true
      · obtain ⟨m, hm, hretry, hsleep, hcount, htries⟩ := ih (tries + 1) (ctr + 1)
        have hstep : retryLoop oracle cfg offset cache (f + 1) tries ctr =
            (retryLoop oracle cfg offset cache f (tries + 1) (ctr + 1)).prependEvs
              [.netCall (urlFor cfg offset) (.http s), .sleep (1000 * 2 ^ (tries + 1))] := by
          simp [retryLoop, ho, hcond]
        refine ⟨m + 1, by omega, ?_, ?_, ?_, ?_⟩
        · intro i hi
          cases i with
          | zero => simpa [retryable, ho] using hcond
          | succ i' =>
            have := hretry i' (by omega)
            rwa [show ctr + 1 + i' = ctr + (i' + 1) by omega] at this
        · rw [hstep, retryOutEvs_prependEvs, sleepsOf_append, hsleep, range_map_pow_shift]
          rfl
        · rw [hstep, retryOutEvs_prependEvs, netCallCount_append]
          have hpre : netCallCount
              [Ev.netCall (urlFor cfg offset) (.http s),
               Ev.sleep (1000 * 2 ^ (tries + 1))] = 1 := rfl
          rw [hpre]
          omega
        · rw [hstep, retryOutTries_prependEvs, htries]
          omega
      · have hcond' : (decide (500 ≤ s) || (s == 429)) = false := by
          simpa using hcond
        exact ⟨0, by simp, by simp,
          by simp [retryLoop, ho, hcond', retryOutEvs, sleepsOf],
          by simp [retryLoop, ho, hcond', retryOutEvs, netCallCount],
          by simp [retryLoop, ho, hcond', retryOutTries]⟩

theorem pushedOffsets_append (l1 l2 : List Ev) :
    pushedOffsets (l1 ++ l2) = pushedOffsets l1 ++ pushedOffsets l2 := by
  simp [pushedOffsets]

theorem retryLoop_no_push (oracle : Nat → Resp) (cfg : FetchCfg) (offset : Nat)
    (cache : CacheKey → Option VSRes) :
    ∀ (fuel tries ctr : Nat),
      pushedOffsets (retryOutEvs (retryLoop oracle cfg offset cache fuel tries ctr)) = [] := by
  intro fuel
  induction fuel with
  | zero => intro tries ctr; simp [retryLoop, retryOutEvs, pushedOffsets]
  | succ f ih =>
    intro tries ctr
    cases ho : oracle ctr with
    | ok p =>
      cases hce : cfg.cacheEnabled <;>
        simp [retryLoop, ho, hce, retryOutEvs, pushedOffsets]
    | netErr => simp [retryLoop, ho, retryOutEvs, pushedOffsets]
    | http s =>
      by_cases hcond : (decide (500 ≤ s) || (s == 429)) = true
      · have hstep : retryLoop oracle cfg offset cache (f + 1) tries ctr =
            (retryLoop oracle cfg offset cache f (tries + 1) (ctr + 1)).prependEvs
              [.netCall (urlFor cfg offset) (.http s), .sleep (1000 * 2 ^ (tries + 1))] := by
          simp [retryLoop, ho, hcond]
        rw [hstep, retryOutEvs_prependEvs, pushedOffsets_append, ih]
        simp [pushedOffsets]
      · have hcond' : (decide (500 ≤ s) || (s == 429)) = false := by simpa using hcond
        simp [retryLoop, ho, hcond', retryOutEvs, pushedOffsets]

theorem getPage_ok_no_push (oracle : Nat → Resp) (cfg : FetchCfg) (offset tries ctr : Nat)
    (cache : CacheKey → Option VSRes) (p : VSRes) (t c : Nat)
    (cc : CacheKey → Option VSRes) (evs0 : List Ev)
    (h : getPage oracle cfg offset tries ctr cache = .ok (p, t, c, cc, evs0)) :
    pushedOffsets evs0 = [] := by
  simp only [getPage] at h
  split at h
  · simp only [Except.ok.injEq, Prod.mk.injEq] at h
    rw [← h.2.2.2.2]
    simp [pushedOffsets]
  · split at h
    · exact absurd h (by simp)
    · cases hrl : retryLoop oracle cfg offset cache (cfg.retry - tries) tries ctr with
      | success q t' c' cc' evs' =>
        rw [hrl] at h
        simp only [Except.ok.injEq, Prod.mk.injEq] at h
        rw [← h.2.2.2.2, pushedOffsets_append]
        have := retryLoop_no_push oracle cfg offset cache (cfg.retry - tries) tries ctr
        rw [hrl] at this
        simp only [retryOutEvs] at this
        rw [this]
        cases cfg.cacheEnabled <;> simp [pushedOffsets]
      | fatal e t' c' evs' => rw [hrl] at h; exact absurd h (by simp)
      | exhausted t' c' evs' => rw [hrl] at h; exact absurd h (by simp)

theorem fetchLoop_ok_spec (oracle : Nat → Resp) (cfg : FetchCfg) :
    ∀ (fuel offset got : Nat) (acc : List VSRes) (tries ctr : Nat)
      (cache : CacheKey → Option VSRes) (r : FetchRes) (ps : List VSRes),
      fetchLoop oracle cfg fuel offset got acc tries ctr cache = some r →
      r.out = .ok ps →
      ∃ newPages, ps = acc ++ newPages ∧ newPages ≠ [] ∧
        stopSpecB got newPages = true ∧
        pushedOffsets r.evs = offsetsFrom offset newPages := by
  intro fuel
  induction fuel with
  | zero =>
    intro offset got acc tries ctr cache r ps h _
    simp [fetchLoop] at h
  | succ f ih =>
    intro offset got acc tries ctr cache r ps h hout
    simp only [fetchLoop] at h
    cases hg : getPage oracle cfg offset tries ctr cache with
    | error e =>
      rw [hg] at h
      obtain ⟨e1, t, c, evs⟩ := e
      simp only [Option.some.injEq] at h
      rw [← h] at hout
      simp at hout
    | ok tup =>
      obtain ⟨p, t, c, cache', evs0⟩ := tup
      rw [hg] at h
      simp only at h
      have hnp : pushedOffsets evs0 = [] :=
        getPage_ok_no_push oracle cfg offset tries ctr cache p t c cache' evs0 hg
      by_cases hbc :
          breakCond p.expContains.length (got + p.expContains.length) p.expTotal = true
      · rw [if_pos hbc] at h
        simp only [Option.some.injEq] at h
        rw [← h] at hout ⊢
        simp only at hout
        have hps : ps = acc ++ [p] := by
          simpa using hout.symm
        refine ⟨[p], hps, by simp, ?_, ?_⟩
        · simpa [stopSpecB] using hbc
        · rw [pushedOffsets_append, hnp]
          rfl
      · rw [if_neg hbc] at h
        cases hrec : fetchLoop oracle cfg f (offset + p.expContains.length)
            (got + p.expContains.length) (acc ++ [p]) t c cache' with
        | none => rw [hrec] at h; exact absurd h (by simp)
        | some r' =>
          rw [hrec] at h
          simp only [Option.some.injEq] at h
          rw [← h] at hout ⊢
          simp only at hout
          obtain ⟨np', hps, hne, hstop, hpush⟩ :=
            ih (offset + p.expContains.length) (got + p.expContains.length)
              (acc ++ [p]) t c cache' r' ps hrec hout
          obtain ⟨q, rest, rfl⟩ : ∃ q rest, np' = q :: rest := by
            cases np' with
            | nil => exact absurd rfl hne
            | cons q rest => exact ⟨q, rest, rfl⟩
          refine ⟨p :: q :: rest, by simpa using hps, by simp, ?_, ?_⟩
          · have hbc' :
                breakCond p.expContains.length (got + p.expContains.length) p.expTotal =
                  false := by
              simpa using hbc
            simp [stopSpecB, hbc', hstop]
          · simp only [pushedOffsets_append, hnp, List.nil_append]
            rw [show pushedOffsets [Ev.pushPage offset p] = [offset] from rfl]
            rw [hpush]
            simp [offsetsFrom]

theorem stopSpec_chain :
    ∀ (ps : List VSRes) (got offset : Nat), stopSpecB got ps = true →
      List.Chain' (· < ·) (offsetsFrom offset ps) := by
  intro ps
  induction ps with
  | nil => intro got offset h; simp [stopSpecB] at h
  | cons p rest ih =>
    intro got offset h
    cases rest with
    | nil => simp [offsetsFrom, List.chain'_singleton]
    | cons q rest' =>
      simp only [stopSpecB, Bool.and_eq_true, Bool.not_eq_true'] at h
      have hlen : p.expContains.length ≠ 0 := by
        intro hz
        have h1 := h.1
        simp [breakCond, hz] at h1
      have hch := ih (got + p.expContains.length) (offset + p.expContains.length) h.2
      have hform : offsetsFrom offset (p :: q :: rest') =
          offset :: offsetsFrom (offset + p.expContains.length) (q :: rest') := rfl
      rw [hform]
      rw [show offsetsFrom (offset + p.expContains.length) (q :: rest') =
          (offset + p.expContains.length) ::
            offsetsFrom (offset + p.expContains.length + q.expContains.length) rest'
        from rfl] at hch ⊢
      exact List.Chain'.cons (by omega) hch

/-- C1, counterexample: a single page holding one item and declaring
no total.  Neither of the claim's stop conditions holds for it
(`claimStopB` is false: the item list is nonempty and no total is
declared), yet the fetch stops and returns just this page — in the
source `if (!contains || !total || got >= total) break;` breaks on the
missing total.  (The network oracle always fails, so the run could only
have returned by not fetching further.) -/
theorem c1_counterexample :
    fetchOut (fetchValueSetExpansion (fun _ => .netErr)
        ⟨"1.2", none, none, 1000, true, false, 3⟩
        (fun k => if k = ⟨"1.2", "latest", 0⟩
          then some ⟨"1.2", none, ["a"], none, none⟩ else none) 5) =
      some (.ok [⟨"1.2", none, ["a"], none, none⟩]) ∧
    claimStopB ⟨"1.2", none, ["a"], none, none⟩ 1 = false :=
  ⟨rfl, by decide⟩

/-- C1, amended: every successful expansion fetch requests pages at
strictly increasing offsets starting at offset 0, and stops exactly
when the current page reports zero returned items, OR declares no total
(or a total of zero), OR the cumulative returned item count reaches or
exceeds the declared total; no earlier page satisfies any of these
conditions.  (A page declaring no total IS a stop condition, contrary
to the original claim.) -/
theorem c1_pagination_amended (oracle : Nat → Resp) (cfg : FetchCfg)
    (cache : CacheKey → Option VSRes) (fuel : Nat) (r : FetchRes) (ps : List VSRes)
    (hr : fetchValueSetExpansion oracle cfg cache fuel = some r)
    (hout : r.out = .ok ps) :
    ps ≠ [] ∧
    stopSpecB 0 ps = true ∧
    pushedOffsets r.evs = offsetsFrom 0 ps ∧
    (pushedOffsets r.evs).head? = some 0 ∧
    List.Chain' (· < ·) (pushedOffsets r.evs) := by
  obtain ⟨np, hps, hne, hstop, hpush⟩ :=
    fetchLoop_ok_spec oracle cfg fuel 0 0 [] 0 0 cache r ps hr hout
  have hplain : ps = np := by simpa using hps
  subst hplain
  refine ⟨hne, hstop, hpush, ?_, ?_⟩
  · rw [hpush]
    cases ps with
    | nil => exact absurd rfl hne
    | cons p rest => rfl
  · rw [hpush]
    exact stopSpec_chain ps 0 0 hstop

/-- C1 witness: the amended theorem at a two-page run (each page holds
one item, the declared total is two): the pages are requested at
offsets 0 then 1 and the run stops exactly on the second page. -/
theorem c1_witness :
    ([(⟨"1.2", none, ["a"], some 2, none⟩ : VSRes), ⟨"1.2", none, ["b"], some 2, none⟩] ≠
        ([] : List VSRes)) ∧
    stopSpecB 0 [⟨"1.2", none, ["a"], some 2, none⟩, ⟨"1.2", none, ["b"], some 2, none⟩] =
      true ∧
    pushedOffsets ((fetchValueSetExpansion
        (fun i => if i = 0 then .ok ⟨"1.2", none, ["a"], some 2, none⟩
          else .ok ⟨"1.2", none, ["b"], some 2, none⟩)
        ⟨"1.2", none, none, 1, false, false, 3⟩ (fun _ => none) 5).getD
          ⟨.ok [], fun _ => none, [], 0, 0⟩).evs =
      offsetsFrom 0 [⟨"1.2", none, ["a"], some 2, none⟩, ⟨"1.2", none, ["b"], some 2, none⟩] ∧
    (pushedOffsets ((fetchValueSetExpansion
        (fun i => if i = 0 then .ok ⟨"1.2", none, ["a"], some 2, none⟩
          else .ok ⟨"1.2", none, ["b"], some 2, none⟩)
        ⟨"1.2", none, none, 1, false, false, 3⟩ (fun _ => none) 5).getD
          ⟨.ok [], fun _ => none, [], 0, 0⟩).evs).head? = some 0 ∧
    List.Chain' (· < ·) (pushedOffsets ((fetchValueSetExpansion
        (fun i => if i = 0 then .ok ⟨"1.2", none, ["a"], some 2, none⟩
          else .ok ⟨"1.2", none, ["b"], some 2, none⟩)
        ⟨"1.2", none, none, 1, false, false, 3⟩ (fun _ => none) 5).getD
          ⟨.ok [], fun _ => none, [], 0, 0⟩).evs) :=
  c1_pagination_amended
    (fun i => if i = 0 then .ok ⟨"1.2", none, ["a"], some 2, none⟩
      else .ok ⟨"1.2", none, ["b"], some 2, none⟩)
    ⟨"1.2", none, none, 1, false, false, 3⟩ (fun _ => none) 5
    ((fetchValueSetExpansion
        (fun i => if i = 0 then .ok ⟨"1.2", none, ["a"], some 2, none⟩
          else .ok ⟨"1.2", none, ["b"], some 2, none⟩)
        ⟨"1.2", none, none, 1, false, false, 3⟩ (fun _ => none) 5).getD
      ⟨.ok [], fun _ => none, [], 0, 0⟩)
    [⟨"1.2", none, ["a"], some 2, none⟩, ⟨"1.2", none, ["b"], some 2, none⟩]
    rfl rfl

/-- C5, counterexample: with `--retry 2`, the first page needs one
retry (a 500, then success), consuming one unit of the SHARED `tries`
counter; the second page's request then fails once with 500 and the
whole fetch aborts with `Failed to fetch expansion after 2 retries.`
after giving that request only ONE attempt — not the configured
maximum of two — because the retry budget is shared across the pages
of one expansion. -/
theorem c5_counterexample :
    fetchOut (fetchValueSetExpansion
        (fun i => if i = 1 then .ok ⟨"1.2", none, ["a"], some 3, none⟩ else .http 500)
        ⟨"1.2", none, none, 1, false, false, 2⟩ (fun _ => none) 5) =
      some (.error (.retryExhausted 2)) ∧
    (fetchEvsOf (fetchValueSetExpansion
        (fun i => if i = 1 then .ok ⟨"1.2", none, ["a"], some 3, none⟩ else .http 500)
        ⟨"1.2", none, none, 1, false, false, 2⟩ (fun _ => none) 5)).map (attemptsAt 1) =
      some 1 ∧
    (fetchEvsOf (fetchValueSetExpansion
        (fun i => if i = 1 then .ok ⟨"1.2", none, ["a"], some 3, none⟩ else .http 500)
        ⟨"1.2", none, none, 1, false, false, 2⟩ (fun _ => none) 5)).map (attemptsAt 0) =
      some 2 ∧
    (1 : Nat) < 2 :=
  ⟨rfl, rfl, rfl, by decide⟩

/-- C5, amended: on a cache miss the retry executor retries only on a
429 or 5xx response; any other HTTP failure or a network-level error is
propagated immediately after a single attempt with no sleep; the delay
before the k-th recorded retry is `1000 * 2 ^ k` (continuing from the
shared counter); and a single invocation issues at most `fuel` attempts
where `fuel = retry - tries` is the REMAINING shared budget — the
configured maximum minus the retries already consumed by earlier pages
of the same expansion fetch (see the counterexample). -/
theorem c5_retry_policy_amended :
    (∀ (oracle : Nat → Resp) (cfg : FetchCfg) (offset : Nat)
        (cache : CacheKey → Option VSRes) (fuel tries ctr s : Nat),
        oracle ctr = .http s → retryable (.http s) = false →
        retryLoop oracle cfg offset cache (fuel + 1) tries ctr =
          .fatal (.http s) tries (ctr + 1) [.netCall (urlFor cfg offset) (.http s)]) ∧
    (∀ (oracle : Nat → Resp) (cfg : FetchCfg) (offset : Nat)
        (cache : CacheKey → Option VSRes) (fuel tries ctr : Nat),
        oracle ctr = .netErr →
        retryLoop oracle cfg offset cache (fuel + 1) tries ctr =
          .fatal .netErr tries (ctr + 1) [.netCall (urlFor cfg offset) .netErr]) ∧
    (∀ (oracle : Nat → Resp) (cfg : FetchCfg) (offset : Nat)
        (cache : CacheKey → Option VSRes) (fuel tries ctr : Nat),
        ∃ m, m ≤ fuel ∧
          (∀ i, i < m → retryable (oracle (ctr + i)) = true) ∧
          sleepsOf (retryOutEvs (retryLoop oracle cfg offset cache fuel tries ctr)) =
            (List.range m).map (fun i => 1000 * 2 ^ (tries + 1 + i)) ∧
          netCallCount (retryOutEvs (retryLoop oracle cfg offset cache fuel tries ctr)) ≤
            fuel ∧
          retryOutTries (retryLoop oracle cfg offset cache fuel tries ctr) = tries + m) := by
  refine ⟨?_, ?_, ?_⟩
  · intro oracle cfg offset cache fuel tries ctr s ho hnr
    have hcond : (decide (500 ≤ s) || (s == 429)) = false := by
      simpa [retryable] using hnr
    simp [retryLoop, ho, hcond]
  · intro oracle cfg offset cache fuel tries ctr ho
    simp [retryLoop, ho]
  · intro oracle cfg offset cache fuel tries ctr
    exact retryLoop_trace oracle cfg offset cache fuel tries ctr

/-- C5 witness: the amended theorem at concrete runs — a 404 and a
network error propagate immediately; the trace clause instantiated at a
run that sleeps 2000 ms then 4000 ms before succeeding on its third
attempt. -/
theorem c5_witness :
    retryLoop (fun _ => .http 404) ⟨"1.2", none, none, 1000, false, false, 3⟩ 0
        (fun _ => none) 1 0 0 =
      .fatal (.http 404) 0 1
        [.netCall (urlFor ⟨"1.2", none, none, 1000, false, false, 3⟩ 0) (.http 404)] ∧
    retryLoop (fun _ => .netErr) ⟨"1.2", none, none, 1000, false, false, 3⟩ 0
        (fun _ => none) 1 0 0 =
      .fatal .netErr 0 1
        [.netCall (urlFor ⟨"1.2", none, none, 1000, false, false, 3⟩ 0) .netErr] ∧
    (∃ m, m ≤ 3 ∧
      (∀ i, i < m →
        retryable ((fun i => if i < 2 then Resp.http 503
          else .ok ⟨"1.2", none, [], none, none⟩) (0 + i)) = true) ∧
      sleepsOf (retryOutEvs (retryLoop
          (fun i => if i < 2 then Resp.http 503 else .ok ⟨"1.2", none, [], none, none⟩)
          ⟨"1.2", none, none, 1000, false, false, 3⟩ 0 (fun _ => none) 3 0 0)) =
        (List.range m).map (fun i => 1000 * 2 ^ (0 + 1 + i)) ∧
      netCallCount (retryOutEvs (retryLoop
          (fun i => if i < 2 then Resp.http 503 else .ok ⟨"1.2", none, [], none, none⟩)
          ⟨"1.2", none, none, 1000, false, false, 3⟩ 0 (fun _ => none) 3 0 0)) ≤ 3 ∧
      retryOutTries (retryLoop
          (fun i => if i < 2 then Resp.http 503 else .ok ⟨"1.2", none, [], none, none⟩)
          ⟨"1.2", none, none, 1000, false, false, 3⟩ 0 (fun _ => none) 3 0 0) = 0 + m) :=
  ⟨c5_retry_policy_amended.1 (fun _ => .http 404)
      ⟨"1.2", none, none, 1000, false, false, 3⟩ 0 (fun _ => none) 0 0 0 404 rfl rfl,
   c5_retry_policy_amended.2.1 (fun _ => .netErr)
      ⟨"1.2", none, none, 1000, false, false, 3⟩ 0 (fun _ => none) 0 0 0 rfl,
   c5_retry_policy_amended.2.2
      (fun i => if i < 2 then Resp.http 503 else .ok ⟨"1.2", none, [], none, none⟩)
      ⟨"1.2", none, none, 1000, false, false, 3⟩ 0 (fun _ => none) 3 0 0⟩

theorem schedInv_init (n N : Nat) (outcome : Nat → JobResult) :
    SchedInv n outcome (min N n) (initState n N) := by
  refine ⟨Nat.zero_le n, ?_, ?_, rfl, ?_, ?_, ?_, ?_, ?_, ?_⟩
  · exact List.length_replicate _ _
  · exact List.length_replicate _ _
  · intro w j h
    have := List.eq_of_mem_replicate (List.getElem?_mem h)
    simp at this
  · intro w j h
    have := List.eq_of_mem_replicate (List.getElem?_mem h)
    simp at this
  · intro w1 w2 j h1 _
    have := List.eq_of_mem_replicate (List.getElem?_mem h1)
    simp at this
  · intro j hj
    exact absurd hj (by simp [initState])
  · intro j r h
    have := List.eq_of_mem_replicate (List.getElem?_mem h)
    simp at this
  · intro w h
    have := List.eq_of_mem_replicate (List.getElem?_mem h)
    simp at this

theorem schedInv_step (n : Nat) (outcome : Nat → JobResult) (W : Nat) (s : SchedState)
    (w : Nat) (hinv : SchedInv n outcome W s) :
    SchedInv n outcome W (step n outcome s w) := by
  obtain ⟨hnext, hwlen, hrlen, hclaims, hwork_lt, hwork_res, hdistinct, hcover, hres, hfin⟩ :=
    hinv
  cases hw : s.workers[w]? with
  | none =>
    have hstep : step n outcome s w = s := by simp [step, hw]
    rw [hstep]
    exact ⟨hnext, hwlen, hrlen, hclaims, hwork_lt, hwork_res, hdistinct, hcover, hres, hfin⟩
  | some st =>
    have hwlt : w < s.workers.length := by
      by_contra hlt
      rw [List.getElem?_eq_none_iff.mpr (by omega)] at hw
      exact absurd hw (by simp)
    cases st with
    | idle =>
      by_cases hn : s.nextIdx < n
      · have hstep : step n outcome s w =
            { s with workers := s.workers.set w (.working s.nextIdx),
                     nextIdx := s.nextIdx + 1,
                     claimsLog := s.claimsLog ++ [s.nextIdx] } := by
          simp [step, hw, hn]
        have hslot : s.results[s.nextIdx]? = some none := by
          have hlt2 : s.nextIdx < s.results.length := by omega
          cases hv : s.results[s.nextIdx]? with
          | none =>
            rw [List.getElem?_eq_none_iff] at hv
            omega
          | some v =>
            cases v with
            | none => rfl
            | some r =>
              obtain ⟨h1, _⟩ := hres _ _ hv
              omega
        rw [hstep]
        refine ⟨?_, ?_, ?_, ?_, ?_, ?_, ?_, ?_, ?_, ?_⟩ <;> dsimp only
        · omega
        · simpa using hwlen
        · exact hrlen
        · rw [hclaims, List.range_succ]
        · intro w' j h'
          by_cases hww : w' = w
          · subst hww
            rw [List.getElem?_set_eq_of_lt _ hwlt] at h'
            simp only [Option.some.injEq, WStatus.working.injEq] at h'
            omega
          · rw [List.getElem?_set_ne (by omega)] at h'
            have := hwork_lt w' j h'
            omega
        · intro w' j h'
          by_cases hww : w' = w
          · subst hww
            rw [List.getElem?_set_eq_of_lt _ hwlt] at h'
            simp only [Option.some.injEq, WStatus.working.injEq] at h'
            rw [← h']
            exact hslot
          · rw [List.getElem?_set_ne (by omega)] at h'
            exact hwork_res w' j h'
        · intro w1 w2 j h1 h2
          by_cases hw1 : w1 = w <;> by_cases hw2 : w2 = w
          · omega
          · subst hw1
            rw [List.getElem?_set_eq_of_lt _ hwlt] at h1
            rw [List.getElem?_set_ne (by omega)] at h2
            simp only [Option.some.injEq, WStatus.working.injEq] at h1
            have := hwork_lt w2 j h2
            omega
          · subst hw2
            rw [List.getElem?_set_eq_of_lt _ hwlt] at h2
            rw [List.getElem?_set_ne (by omega)] at h1
            simp only [Option.some.injEq, WStatus.working.injEq] at h2
            have := hwork_lt w1 j h1
            omega
          · rw [List.getElem?_set_ne (by omega)] at h1 h2
            exact hdistinct w1 w2 j h1 h2
        · intro j hj
          by_cases hjn : j = s.nextIdx
          · subst hjn
            right
            exact ⟨w, by rw [List.getElem?_set_eq_of_lt _ hwlt]⟩
          · rcases hcover j (by omega) with hl | ⟨w', hw'⟩
            · exact Or.inl hl
            · right
              have hww' : w' ≠ w := by
                intro he
                subst he
                rw [hw] at hw'
                simp at hw'
              exact ⟨w', by rw [List.getElem?_set_ne (by omega)]; exact hw'⟩
        · intro j r h'
          obtain ⟨h1, h2⟩ := hres j r h'
          exact ⟨by omega, h2⟩
        · intro w' h'
          by_cases hww : w' = w
          · subst hww
            rw [List.getElem?_set_eq_of_lt _ hwlt] at h'
            simp at h'
          · rw [List.getElem?_set_ne (by omega)] at h'
            have := hfin w' h'
            omega
      · have hstep : step n outcome s w =
            { s with workers := s.workers.set w .finished } := by
          simp [step, hw, hn]
        rw [hstep]
        refine ⟨?_, ?_, ?_, ?_, ?_, ?_, ?_, ?_, ?_, ?_⟩ <;> dsimp only
        · exact hnext
        · simpa using hwlen
        · exact hrlen
        · exact hclaims
        · intro w' j h'
          by_cases hww : w' = w
          · subst hww
            rw [List.getElem?_set_eq_of_lt _ hwlt] at h'
            simp at h'
          · rw [List.getElem?_set_ne (by omega)] at h'
            exact hwork_lt w' j h'
        · intro w' j h'
          by_cases hww : w' = w
          · subst hww
            rw [List.getElem?_set_eq_of_lt _ hwlt] at h'
            simp at h'
          · rw [List.getElem?_set_ne (by omega)] at h'
            exact hwork_res w' j h'
        · intro w1 w2 j h1 h2
          by_cases hw1 : w1 = w
          · subst hw1
            rw [List.getElem?_set_eq_of_lt _ hwlt] at h1
            simp at h1
          · by_cases hw2 : w2 = w
            · subst hw2
              rw [List.getElem?_set_eq_of_lt _ hwlt] at h2
              simp at h2
            · rw [List.getElem?_set_ne (by omega)] at h1 h2
              exact hdistinct w1 w2 j h1 h2
        · intro j hj
          rcases hcover j hj with hl | ⟨w', hw'⟩
          · exact Or.inl hl
          · right
            have hww' : w' ≠ w := by
              intro he
              subst he
              rw [hw] at hw'
              simp at hw'
            exact ⟨w', by rw [List.getElem?_set_ne (by omega)]; exact hw'⟩
        · exact hres
        · intro w' _
          omega
    | working j0 =>
      have hstep : step n outcome s w =
          { s with workers := s.workers.set w .idle,
                   results := s.results.set j0 (some (outcome j0)),
                   completed := s.completed + 1 } := by
        simp [step, hw]
      have hj0 : j0 < s.nextIdx := hwork_lt w j0 hw
      have hj0len : j0 < s.results.length := by omega
      rw [hstep]
      refine ⟨?_, ?_, ?_, ?_, ?_, ?_, ?_, ?_, ?_, ?_⟩ <;> dsimp only
      · exact hnext
      · simpa using hwlen
      · simpa using hrlen
      · exact hclaims
      · intro w' j h'
        by_cases hww : w' = w
        · subst hww
          rw [List.getElem?_set_eq_of_lt _ hwlt] at h'
          simp at h'
        · rw [List.getElem?_set_ne (by omega)] at h'
          exact hwork_lt w' j h'
      · intro w' j h'
        by_cases hww : w' = w
        · subst hww
          rw [List.getElem?_set_eq_of_lt _ hwlt] at h'
          simp at h'
        · rw [List.getElem?_set_ne (by omega)] at h'
          have hjj0 : j ≠ j0 := by
            intro he
            subst he
            exact hww (hdistinct w' w j h' hw)
          rw [List.getElem?_set_ne (by omega)]
          exact hwork_res w' j h'
      · intro w1 w2 j h1 h2
        by_cases hw1 : w1 = w
        · subst hw1
          rw [List.getElem?_set_eq_of_lt _ hwlt] at h1
          simp at h1
        · by_cases hw2 : w2 = w
          · subst hw2
            rw [List.getElem?_set_eq_of_lt _ hwlt] at h2
            simp at h2
          · rw [List.getElem?_set_ne (by omega)] at h1 h2
            exact hdistinct w1 w2 j h1 h2
      · intro j hj
        by_cases hjj0 : j = j0
        · subst hjj0
          left
          rw [List.getElem?_set_eq_of_lt _ hj0len]
        · rcases hcover j hj with hl | ⟨w', hw'⟩
          · left
            rw [List.getElem?_set_ne (by omega)]
            exact hl
          · have hww' : w' ≠ w := by
              intro he
              subst he
              rw [hw] at hw'
              simp only [Option.some.injEq, WStatus.working.injEq] at hw'
              exact hjj0 hw'.symm
            right
            exact ⟨w', by rw [List.getElem?_set_ne (by omega)]; exact hw'⟩
      · intro j r h'
        by_cases hjj0 : j = j0
        · subst hjj0
          rw [List.getElem?_set_eq_of_lt _ hj0len] at h'
          simp only [Option.some.injEq] at h'
          exact ⟨hj0, h'.symm⟩
        · rw [List.getElem?_set_ne (by omega)] at h'
          exact hres j r h'
      · intro w' h'
        by_cases hww : w' = w
        · subst hww
          rw [List.getElem?_set_eq_of_lt _ hwlt] at h'
          simp at h'
        · rw [List.getElem?_set_ne (by omega)] at h'
          exact hfin w' h'
    | finished =>
      have hstep : step n outcome s w = s := by simp [step, hw]
      rw [hstep]
      exact ⟨hnext, hwlen, hrlen, hclaims, hwork_lt, hwork_res, hdistinct, hcover, hres, hfin⟩

theorem schedInv_exec (n : Nat) (outcome : Nat → JobResult) (W : Nat) :
    ∀ (sched : List Nat) (s : SchedState), SchedInv n outcome W s →
      SchedInv n outcome W (exec n outcome sched s) := by
  intro sched
  induction sched with
  | nil => intro s h; exact h
  | cons w ws ih =>
    intro s h
    exact ih (step n outcome s w) (schedInv_step n outcome W s w h)

theorem schedInv_terminal (n N : Nat) (hN : 1 ≤ N) (outcome : Nat → JobResult)
    (s : SchedState) (hinv : SchedInv n outcome (min N n) s) (hterm : terminal s) :
    s.nextIdx = n ∧ s.claimsLog = List.range n ∧
      s.results = (List.range n).map (fun j => some (outcome j)) := by
  obtain ⟨hnext, hwlen, hrlen, hclaims, hwork_lt, hwork_res, hdistinct, hcover, hres, hfin⟩ :=
    hinv
  have hidx : s.nextIdx = n := by
    rcases Nat.eq_zero_or_pos n with hz | hpos
    · omega
    · have hWpos : 1 ≤ min N n := by omega
      have hne : s.workers.length ≠ 0 := by omega
      cases hv : s.workers[0]? with
      | none =>
        rw [List.getElem?_eq_none_iff] at hv
        omega
      | some st =>
        have hmem := List.getElem?_mem hv
        have := hterm st hmem
        subst this
        have := hfin 0 hv
        omega
  have hfill : ∀ j : Nat, j < n → s.results[j]? = some (some (outcome j)) := by
    intro j hj
    rcases hcover j (by omega) with hl | ⟨w', hw'⟩
    · exact hl
    · have hmem := List.getElem?_mem hw'
      have := hterm _ hmem
      simp at this
  refine ⟨hidx, by rw [hclaims, hidx], ?_⟩
  apply List.ext_getElem?
  intro j
  by_cases hj : j < n
  · rw [hfill j hj, List.getElem?_map, List.getElem?_range hj]
    rfl
  · rw [List.getElem?_eq_none_iff.mpr (by omega),
      List.getElem?_eq_none_iff.mpr (by simpa using (by omega : n ≤ j))]

/-- C3: for every job count `n`, concurrency limit `N ≥ 1` and every
cooperative schedule, the `valueset` scheduler spawns exactly
`min N n` workers, never has more than `N` jobs in flight, and — in any
terminal state — has claimed each job index exactly once, in order
(`claimsLog = range n`), and has placed each job's outcome in the
result slot of that job's original input position, regardless of the
interleaving. -/
theorem c3_scheduler_spec (n N : Nat) (hN : 1 ≤ N) (outcome : Nat → JobResult)
    (sched : List Nat) :
    (initState n N).workers.length = min N n ∧
    min N n ≤ N ∧
    countWorking (exec n outcome sched (initState n N)).workers ≤ N ∧
    (terminal (exec n outcome sched (initState n N)) →
      (exec n outcome sched (initState n N)).claimsLog = List.range n ∧
      (exec n outcome sched (initState n N)).results =
        (List.range n).map (fun j => some (outcome j))) := by
  have hinv := schedInv_exec n outcome (min N n) sched (initState n N)
    (schedInv_init n N outcome)
  refine ⟨by simp [initState], Nat.min_le_left N n, ?_, ?_⟩
  · calc countWorking (exec n outcome sched (initState n N)).workers
        ≤ (exec n outcome sched (initState n N)).workers.length :=
          List.countP_le_length _
      _ = min N n := hinv.hwlen
      _ ≤ N := Nat.min_le_left N n
  · intro hterm
    obtain ⟨_, h2, h3⟩ := schedInv_terminal n N hN outcome _ hinv hterm
    exact ⟨h2, h3⟩

/-- C3 witness: the scheduler theorem at three jobs, two workers, and a
schedule that interleaves the two workers and reaches a terminal
state. -/
theorem c3_witness :
    (initState 3 2).workers.length = min 2 3 ∧
    min 2 3 ≤ 2 ∧
    countWorking (exec 3 (fun j => ⟨toString j, none, none, none, none⟩)
      [0, 1, 0, 0, 1, 1, 0, 0] (initState 3 2)).workers ≤ 2 ∧
    (terminal (exec 3 (fun j => ⟨toString j, none, none, none, none⟩)
        [0, 1, 0, 0, 1, 1, 0, 0] (initState 3 2)) →
      (exec 3 (fun j => ⟨toString j, none, none, none, none⟩)
        [0, 1, 0, 0, 1, 1, 0, 0] (initState 3 2)).claimsLog = List.range 3 ∧
      (exec 3 (fun j => ⟨toString j, none, none, none, none⟩)
        [0, 1, 0, 0, 1, 1, 0, 0] (initState 3 2)).results =
        (List.range 3).map
          (fun j => some ((fun j => ⟨toString j, none, none, none, none⟩) j))) :=
  c3_scheduler_spec 3 2 (by decide)
    (fun j => ⟨toString j, none, none, none, none⟩) [0, 1, 0, 0, 1, 1, 0, 0]

/-- C4: with the UMLS key present, any per-job pipeline outcomes (each
job's `try` body may throw), and any schedule reaching a terminal
state: the run returns normally with exit code 0, every result slot —
including every failed job's — is filled at its original position, a
failed job's slot records `{ oid: rawId, error: message }`, sibling
jobs keep their own outcomes, and the final summary counts downloaded
and errored jobs exactly. -/
theorem c4_error_isolation (key : String) (n N : Nat) (hN : 1 ≤ N) (ids : Nat → String)
    (pipeline : Nat → Except String JobSuccess) (sched : List Nat)
    (hterm : terminal (exec n (fun j => jobResultOf (ids j) (pipeline j)) sched
      (initState n N))) :
    exitCodeOf (valuesetAction (some key) n N
      (fun j => jobResultOf (ids j) (pipeline j)) sched) = 0 ∧
    (exec n (fun j => jobResultOf (ids j) (pipeline j)) sched (initState n N)).results =
      (List.range n).map (fun j => some (jobResultOf (ids j) (pipeline j))) ∧
    (∀ (j : Nat) (e : String), pipeline j = .error e →
      jobResultOf (ids j) (pipeline j) =
        { oid := ids j, defRes := none, expRes := none, version := none,
          error := some e }) ∧
    valuesetAction (some key) n N (fun j => jobResultOf (ids j) (pipeline j)) sched =
      .ok (exec n (fun j => jobResultOf (ids j) (pipeline j)) sched (initState n N),
        ⟨n, (List.range n).countP (fun j => exceptOk (pipeline j)),
            (List.range n).countP (fun j => !exceptOk (pipeline j))⟩) := by
  have hinv := schedInv_exec n (fun j => jobResultOf (ids j) (pipeline j)) (min N n) sched
    (initState n N) (schedInv_init n N _)
  obtain ⟨_, _, hresults⟩ := schedInv_terminal n N hN _ _ hinv hterm
  have hsum : summaryOf n
      ((List.range n).map (fun j => some (jobResultOf (ids j) (pipeline j)))) =
      ⟨n, (List.range n).countP (fun j => exceptOk (pipeline j)),
          (List.range n).countP (fun j => !exceptOk (pipeline j))⟩ := by
    simp only [summaryOf, List.countP_map, Summary.mk.injEq]
    refine ⟨trivial, ?_, ?_⟩
    · apply List.countP_congr
      intro j _
      cases hp : pipeline j <;> simp [Function.comp, jobResultOf, hp, exceptOk]
    · apply List.countP_congr
      intro j _
      cases hp : pipeline j <;> simp [Function.comp, jobResultOf, hp, exceptOk]
  refine ⟨rfl, hresults, ?_, ?_⟩
  · intro j e he
    simp [jobResultOf, he]
  · have hact : valuesetAction (some key) n N
        (fun j => jobResultOf (ids j) (pipeline j)) sched =
        .ok (exec n (fun j => jobResultOf (ids j) (pipeline j)) sched (initState n N),
          summaryOf n (exec n (fun j => jobResultOf (ids j) (pipeline j)) sched
            (initState n N)).results) := rfl
    rw [hact, hresults, hsum]

/-- C4 witness: a run of two jobs on one worker where the second job's
pipeline throws `boom`: the run exits 0, slot 0 keeps its success,
slot 1 records the error against the raw identifier, and the summary
counts one download and one error. -/
theorem c4_witness :
    exitCodeOf (valuesetAction (some "k") 2 1
      (fun j => jobResultOf ((fun j => if j = 0 then "good" else "bad") j)
        ((fun j => if j = 0
          then Except.ok (⟨"1.1", none, none, some "v"⟩ : JobSuccess)
          else Except.error "boom") j)) [0, 0, 0, 0, 0]) = 0 ∧
    (exec 2 (fun j => jobResultOf ((fun j => if j = 0 then "good" else "bad") j)
        ((fun j => if j = 0
          then Except.ok (⟨"1.1", none, none, some "v"⟩ : JobSuccess)
          else Except.error "boom") j)) [0, 0, 0, 0, 0] (initState 2 1)).results =
      (List.range 2).map (fun j => some (jobResultOf
        ((fun j => if j = 0 then "good" else "bad") j)
        ((fun j => if j = 0
          then Except.ok (⟨"1.1", none, none, some "v"⟩ : JobSuccess)
          else Except.error "boom") j))) ∧
    (∀ (j : Nat) (e : String),
      (fun j => if j = 0
        then Except.ok (⟨"1.1", none, none, some "v"⟩ : JobSuccess)
        else Except.error "boom") j = .error e →
      jobResultOf ((fun j => if j = 0 then "good" else "bad") j)
        ((fun j => if j = 0
          then Except.ok (⟨"1.1", none, none, some "v"⟩ : JobSuccess)
          else Except.error "boom") j) =
        { oid := (fun j => if j = 0 then "good" else "bad") j, defRes := none,
          expRes := none, version := none, error := some e }) ∧
    valuesetAction (some "k") 2 1
      (fun j => jobResultOf ((fun j => if j = 0 then "good" else "bad") j)
        ((fun j => if j = 0
          then Except.ok (⟨"1.1", none, none, some "v"⟩ : JobSuccess)
          else Except.error "boom") j)) [0, 0, 0, 0, 0] =
      .ok (exec 2 (fun j => jobResultOf ((fun j => if j = 0 then "good" else "bad") j)
          ((fun j => if j = 0
            then Except.ok (⟨"1.1", none, none, some "v"⟩ : JobSuccess)
            else Except.error "boom") j)) [0, 0, 0, 0, 0] (initState 2 1),
        ⟨2, (List.range 2).countP (fun j => exceptOk
              ((fun j => if j = 0
                then Except.ok (⟨"1.1", none, none, some "v"⟩ : JobSuccess)
                else Except.error "boom") j)),
            (List.range 2).countP (fun j => !exceptOk
              ((fun j => if j = 0
                then Except.ok (⟨"1.1", none, none, some "v"⟩ : JobSuccess)
                else Except.error "boom") j))⟩) :=
  c4_error_isolation "k" 2 1 (by decide) (fun j => if j = 0 then "good" else "bad")
    (fun j => if j = 0
      then Except.ok (⟨"1.1", none, none, some "v"⟩ : JobSuccess)
      else Except.error "boom") [0, 0, 0, 0, 0] (by decide)

theorem postEach_dry (oracle : Nat → PostResp) (b : String) :
    ∀ (res : List VSRes) (i : Nat),
      postEach oracle b true res i = (.ok (), List.replicate res.length (.dryPostLog b)) := by
  intro res
  induction res with
  | nil => intro i; rfl
  | cons r rest ih =>
    intro i
    simp [postEach, ih i, List.replicate_succ]

/-- C9: in dry-run mode a job never issues a network call (neither the
definition GET nor any expansion GET) and never writes a cache entry —
the fetch stages are replaced by stub resources and the cache is
returned unchanged — yet the job still succeeds and writes at least one
output file for its identifier; and the upload stage in dry-run mode
performs no POST at all, in either bundled or per-resource mode. -/
theorem c9_dry_run (defOracle : Resp) (oracle : Nat → Resp) (opts : JobOpts)
    (cache : CacheKey → Option VSRes) (fuel : Nat) (id oid : String)
    (hdry : opts.dryRun = true) (hid : normalizeVsacId id = .ok oid) :
    (∃ out, runJob defOracle oracle opts cache fuel id = some out ∧
      out.evs.countP isNetEv = 0 ∧
      out.evs.countP isCacheWriteEv = 0 ∧
      out.cache = cache ∧
      1 ≤ out.evs.countP isFileWriteEv ∧
      exceptOk out.res = true) ∧
    (∀ (poracle : Nat → PostResp) (baseUrl : String) (resources : List VSRes)
        (bundleFlag : Bool),
      (postValueSetsToHapi poracle baseUrl resources bundleFlag true).2.countP isNetEv = 0) := by
  constructor
  · cases hm : opts.mode with
    | definition =>
      simp only [runJob, hid, hdry, hm, writeValueSetFiles, mergeExpansionPages]
      simp only [reduceCtorEq, or_self, or_false, or_true, if_true, if_false, ite_true,
        ite_false, reduceIte]
      refine ⟨_, rfl, ?_, ?_, rfl, ?_, rfl⟩ <;>
        simp [isNetEv, isCacheWriteEv, isFileWriteEv]
    | expansion =>
      simp only [runJob, hid, hdry, hm, writeValueSetFiles, mergeExpansionPages]
      simp only [reduceCtorEq, or_self, or_false, or_true, if_true, if_false, ite_true,
        ite_false, reduceIte]
      refine ⟨_, rfl, ?_, ?_, rfl, ?_, rfl⟩ <;>
        simp [isNetEv, isCacheWriteEv, isFileWriteEv]
    | both =>
      simp only [runJob, hid, hdry, hm, writeValueSetFiles, mergeExpansionPages]
      simp only [reduceCtorEq, or_self, or_false, or_true, if_true, if_false, ite_true,
        ite_false, reduceIte]
      refine ⟨_, rfl, ?_, ?_, rfl, ?_, rfl⟩ <;>
        simp [isNetEv, isCacheWriteEv, isFileWriteEv]
  · intro poracle baseUrl resources bundleFlag
    cases bundleFlag with
    | true => simp [postValueSetsToHapi, isNetEv]
    | false =>
      simp only [postValueSetsToHapi, Bool.false_eq_true, if_false, postEach_dry]
      simp [isNetEv, List.countP_eq_zero]

/-- C9 witness: the dry-run theorem at the spec's example identifier
`2.16.840.1.113883.3.464.1003.110.12.1001` in expansion mode. -/
theorem c9_witness :
    (∃ out, runJob .netErr (fun _ => .netErr)
        ⟨.expansion, none, none, "./valuesets", 1000, true, true, 3⟩
        (fun _ => none) 0 "2.16.840.1.113883.3.464.1003.110.12.1001" = some out ∧
      out.evs.countP isNetEv = 0 ∧
      out.evs.countP isCacheWriteEv = 0 ∧
      out.cache = (fun _ => none) ∧
      1 ≤ out.evs.countP isFileWriteEv ∧
      exceptOk out.res = true) ∧
    (∀ (poracle : Nat → PostResp) (baseUrl : String) (resources : List VSRes)
        (bundleFlag : Bool),
      (postValueSetsToHapi poracle baseUrl resources bundleFlag true).2.countP isNetEv = 0) :=
  c9_dry_run .netErr (fun _ => .netErr)
    ⟨.expansion, none, none, "./valuesets", 1000, true, true, 3⟩
    (fun _ => none) 0 "2.16.840.1.113883.3.464.1003.110.12.1001"
    "2.16.840.1.113883.3.464.1003.110.12.1001" rfl rfl

theorem retryLoop_success_cache (oracle : Nat → Resp) (cfg : FetchCfg) (offset : Nat)
    (cache : CacheKey → Option VSRes) :
    ∀ (fuel tries ctr : Nat) (p : VSRes) (t c : Nat) (cc : CacheKey → Option VSRes)
      (evs : List Ev),
      retryLoop oracle cfg offset cache fuel tries ctr = .success p t c cc evs →
      cc = (if cfg.cacheEnabled then
              (fun k => if k = cacheKeyFor cfg offset then some p else cache k)
            else cache) := by
  intro fuel
  induction fuel with
  | zero =>
    intro tries ctr p t c cc evs h
    exact absurd h (by simp [retryLoop])
  | succ f ih =>
    intro tries ctr p t c cc evs h
    cases ho : oracle ctr with
    | ok q =>
      simp only [retryLoop, ho] at h
      cases hce : cfg.cacheEnabled
      · rw [hce] at h
        simp only [Bool.false_eq_true, reduceIte, RetryOut.success.injEq] at h ⊢
        exact h.2.2.2.1.symm
      · rw [hce] at h
        simp only [reduceIte, RetryOut.success.injEq] at h ⊢
        rw [← h.2.2.2.1, ← h.1]
    | netErr =>
      simp only [retryLoop, ho] at h
      exact absurd h (by simp)
    | http s =>
      by_cases hcond : (decide (500 ≤ s) || (s == 429)) = true
      · have hh : retryLoop oracle cfg offset cache (f + 1) tries ctr =
            (retryLoop oracle cfg offset cache f (tries + 1) (ctr + 1)).prependEvs
              [.netCall (urlFor cfg offset) (.http s), .sleep (1000 * 2 ^ (tries + 1))] := by
          simp [retryLoop, ho, hcond]
        rw [hh] at h
        cases hrec : retryLoop oracle cfg offset cache f (tries + 1) (ctr + 1) with
        | success p' t' c' cc' evs' =>
          rw [hrec] at h
          simp only [RetryOut.prependEvs, RetryOut.success.injEq] at h
          rw [← h.2.2.2.1, ← h.1]
          exact ih (tries + 1) (ctr + 1) p' t' c' cc' evs' hrec
        | fatal e t' c' evs' =>
          rw [hrec] at h
          exact absurd h (by simp [RetryOut.prependEvs])
        | exhausted t' c' evs' =>
          rw [hrec] at h
          exact absurd h (by simp [RetryOut.prependEvs])
      · have hh : retryLoop oracle cfg offset cache (f + 1) tries ctr =
            .fatal (.http s) tries (ctr + 1) [.netCall (urlFor cfg offset) (.http s)] := by
          simp [retryLoop, ho, hcond]
        rw [hh] at h
        exact absurd h (by simp)

theorem getPage_cache (oracle : Nat → Resp) (cfg : FetchCfg) (offset tries ctr : Nat)
    (cache : CacheKey → Option VSRes) (p : VSRes) (t c : Nat)
    (cache' : CacheKey → Option VSRes) (evs0 : List Ev)
    (h : getPage oracle cfg offset tries ctr cache = .ok (p, t, c, cache', evs0)) :
    (∀ o : Nat, o ≠ offset → cache' (cacheKeyFor cfg o) = cache (cacheKeyFor cfg o)) ∧
    (cfg.cacheEnabled = true → cache' (cacheKeyFor cfg offset) = some p) := by
  have hkeyne : ∀ o : Nat, o ≠ offset → cacheKeyFor cfg o ≠ cacheKeyFor cfg offset := by
    intro o ho he
    simp only [cacheKeyFor, CacheKey.mk.injEq] at he
    exact ho he.2.2
  simp only [getPage] at h
  split at h
  · next q heq =>
    simp only [Except.ok.injEq, Prod.mk.injEq] at h
    obtain ⟨hp, _, _, hcc, _⟩ := h
    refine ⟨by intro o _; rw [← hcc], ?_⟩
    intro hce
    rw [hce] at heq
    simp only [reduceIte] at heq
    rw [← hcc, heq, hp]
  · next heq =>
    split at h
    · exact absurd h (by simp)
    · cases hrl : retryLoop oracle cfg offset cache (cfg.retry - tries) tries ctr with
      | success q t' c' cc' evs' =>
        rw [hrl] at h
        simp only [Except.ok.injEq, Prod.mk.injEq] at h
        obtain ⟨hp, _, _, hcc, _⟩ := h
        have hcc' := retryLoop_success_cache oracle cfg offset cache
          (cfg.retry - tries) tries ctr q t' c' cc' evs' hrl
        constructor
        · intro o ho
          rw [← hcc, hcc']
          cases hce : cfg.cacheEnabled
          · simp
          · simp only [if_true]
            rw [if_neg (hkeyne o ho)]
        · intro hce
          rw [← hcc, hcc', hce]
          simp [hp]
      | fatal e t' c' evs' => rw [hrl] at h; exact absurd h (by simp)
      | exhausted t' c' evs' => rw [hrl] at h; exact absurd h (by simp)

theorem fetchLoop_cache_preserve (oracle : Nat → Resp) (cfg : FetchCfg) :
    ∀ (fuel offset got : Nat) (acc : List VSRes) (tries ctr : Nat)
      (cache : CacheKey → Option VSRes) (r : FetchRes),
      fetchLoop oracle cfg fuel offset got acc tries ctr cache = some r →
      ∀ o : Nat, o < offset →
        r.cache (cacheKeyFor cfg o) = cache (cacheKeyFor cfg o) := by
  intro fuel
  induction fuel with
  | zero =>
    intro offset got acc tries ctr cache r h
    simp [fetchLoop] at h
  | succ f ih =>
    intro offset got acc tries ctr cache r h o ho
    simp only [fetchLoop] at h
    cases hg : getPage oracle cfg offset tries ctr cache with
    | error e =>
      rw [hg] at h
      obtain ⟨e1, t, c, evs⟩ := e
      simp only [Option.some.injEq] at h
      rw [← h]
    | ok tup =>
      obtain ⟨p, t, c, cache', evs0⟩ := tup
      rw [hg] at h
      simp only at h
      have hgc := getPage_cache oracle cfg offset tries ctr cache p t c cache' evs0 hg
      have hpres : cache' (cacheKeyFor cfg o) = cache (cacheKeyFor cfg o) :=
        hgc.1 o (by omega)
      by_cases hbc :
          breakCond p.expContains.length (got + p.expContains.length) p.expTotal = true
      · rw [if_pos hbc] at h
        simp only [Option.some.injEq] at h
        rw [← h]
        exact hpres
      · rw [if_neg hbc] at h
        cases hrec : fetchLoop oracle cfg f (offset + p.expContains.length)
            (got + p.expContains.length) (acc ++ [p]) t c cache' with
        | none => rw [hrec] at h; exact absurd h (by simp)
        | some r' =>
          rw [hrec] at h
          simp only [Option.some.injEq] at h
          rw [← h]
          have := ih (offset + p.expContains.length) (got + p.expContains.length)
            (acc ++ [p]) t c cache' r' hrec o (by omega)
          simp only at this ⊢
          rw [this, hpres]

theorem fetchLoop_ok_fuel (oracle : Nat → Resp) (cfg : FetchCfg) :
    ∀ (fuel offset got : Nat) (acc : List VSRes) (tries ctr : Nat)
      (cache : CacheKey → Option VSRes) (r : FetchRes) (ps : List VSRes),
      fetchLoop oracle cfg fuel offset got acc tries ctr cache = some r →
      r.out = .ok ps →
      ps.length ≤ acc.length + fuel := by
  intro fuel
  induction fuel with
  | zero =>
    intro offset got acc tries ctr cache r ps h _
    simp [fetchLoop] at h
  | succ f ih =>
    intro offset got acc tries ctr cache r ps h hout
    simp only [fetchLoop] at h
    cases hg : getPage oracle cfg offset tries ctr cache with
    | error e =>
      rw [hg] at h
      obtain ⟨e1, t, c, evs⟩ := e
      simp only [Option.some.injEq] at h
      rw [← h] at hout
      simp at hout
    | ok tup =>
      obtain ⟨p, t, c, cache', evs0⟩ := tup
      rw [hg] at h
      simp only at h
      by_cases hbc :
          breakCond p.expContains.length (got + p.expContains.length) p.expTotal = true
      · rw [if_pos hbc] at h
        simp only [Option.some.injEq] at h
        rw [← h] at hout
        simp only at hout
        have hps : acc ++ [p] = ps := by simpa using hout
        rw [← hps]
        simp only [List.length_append, List.length_cons, List.length_nil]
        omega
      · rw [if_neg hbc] at h
        cases hrec : fetchLoop oracle cfg f (offset + p.expContains.length)
            (got + p.expContains.length) (acc ++ [p]) t c cache' with
        | none => rw [hrec] at h; exact absurd h (by simp)
        | some r' =>
          rw [hrec] at h
          simp only [Option.some.injEq] at h
          rw [← h] at hout
          simp only at hout
          have := ih (offset + p.expContains.length) (got + p.expContains.length)
            (acc ++ [p]) t c cache' r' ps hrec hout
          simp only [List.length_append, List.length_cons, List.length_nil] at this
          omega

theorem fetchLoop_ok_cache (oracle : Nat → Resp) (cfg : FetchCfg)
    (hce : cfg.cacheEnabled = true) :
    ∀ (fuel offset got : Nat) (acc : List VSRes) (tries ctr : Nat)
      (cache : CacheKey → Option VSRes) (r : FetchRes) (newPages : List VSRes),
      fetchLoop oracle cfg fuel offset got acc tries ctr cache = some r →
      r.out = .ok (acc ++ newPages) →
      ∀ (i off : Nat) (pg : VSRes), (offsetsFrom offset newPages)[i]? = some off →
        newPages[i]? = some pg →
        r.cache (cacheKeyFor cfg off) = some pg := by
  intro fuel
  induction fuel with
  | zero =>
    intro offset got acc tries ctr cache r newPages h
    simp [fetchLoop] at h
  | succ f ih =>
    intro offset got acc tries ctr cache r newPages h hout i off pg hoff hpg
    simp only [fetchLoop] at h
    cases hg : getPage oracle cfg offset tries ctr cache with
    | error e =>
      rw [hg] at h
      obtain ⟨e1, t, c, evs⟩ := e
      simp only [Option.some.injEq] at h
      rw [← h] at hout
      simp at hout
    | ok tup =>
      obtain ⟨p, t, c, cache', evs0⟩ := tup
      rw [hg] at h
      simp only at h
      have hgc := getPage_cache oracle cfg offset tries ctr cache p t c cache' evs0 hg
      by_cases hbc :
          breakCond p.expContains.length (got + p.expContains.length) p.expTotal = true
      · rw [if_pos hbc] at h
        simp only [Option.some.injEq] at h
        rw [← h] at hout
        simp only at hout
        have hnp : newPages = [p] := by
          have := hout.symm
          simp only [Except.ok.injEq] at this
          exact List.append_cancel_left this
        subst hnp
        simp only [offsetsFrom] at hoff
        cases i with
        | zero =>
          simp only [List.getElem?_cons_zero, Option.some.injEq] at hoff hpg
          rw [← h]
          simp only
          rw [← hoff, ← hpg]
          exact hgc.2 hce
        | succ i' => simp at hoff
      · rw [if_neg hbc] at h
        have hc0 : p.expContains.length ≠ 0 := by
          intro hz
          rw [hz] at hbc
          simp [breakCond] at hbc
        cases hrec : fetchLoop oracle cfg f (offset + p.expContains.length)
            (got + p.expContains.length) (acc ++ [p]) t c cache' with
        | none => rw [hrec] at h; exact absurd h (by simp)
        | some r' =>
          rw [hrec] at h
          simp only [Option.some.injEq] at h
          rw [← h] at hout
          simp only at hout
          obtain ⟨np', hps, _, _, _⟩ :=
            fetchLoop_ok_spec oracle cfg f (offset + p.expContains.length)
              (got + p.expContains.length) (acc ++ [p]) t c cache' r' (acc ++ newPages)
              hrec hout
          have hnp : newPages = p :: np' := by
            have : acc ++ newPages = acc ++ p :: np' := by simpa using hps
            exact List.append_cancel_left this
          subst hnp
          cases i with
          | zero =>
            simp only [offsetsFrom, List.getElem?_cons_zero, Option.some.injEq] at hoff hpg
            rw [← h]
            simp only
            have hpres := fetchLoop_cache_preserve oracle cfg f
              (offset + p.expContains.length) (got + p.expContains.length) (acc ++ [p])
              t c cache' r' hrec off (by omega)
            rw [hpres, ← hoff, ← hpg]
            exact hgc.2 hce
          | succ i' =>
            simp only [offsetsFrom, List.getElem?_cons_succ] at hoff hpg
            have := ih (offset + p.expContains.length) (got + p.expContains.length)
              (acc ++ [p]) t c cache' r' np' hrec (by simpa using hout) i' off pg hoff hpg
            rw [← h]
            exact this

theorem fetchLoop_replay (oracle2 : Nat → Resp) (cfg2 : FetchCfg)
    (hce : cfg2.cacheEnabled = true) :
    ∀ (ps : List VSRes) (fuel offset got : Nat) (acc : List VSRes) (tries ctr : Nat)
      (c2 : CacheKey → Option VSRes),
      ps.length ≤ fuel →
      stopSpecB got ps = true →
      (∀ (i off : Nat) (pg : VSRes), (offsetsFrom offset ps)[i]? = some off →
        ps[i]? = some pg → c2 (cacheKeyFor cfg2 off) = some pg) →
      ∃ evs, fetchLoop oracle2 cfg2 fuel offset got acc tries ctr c2 =
        some ⟨.ok (acc ++ ps), c2, evs, tries, ctr⟩ ∧ netCallCount evs = 0 := by
  intro ps
  induction ps with
  | nil =>
    intro fuel offset got acc tries ctr c2 _ hstop _
    simp [stopSpecB] at hstop
  | cons p rest ih =>
    intro fuel offset got acc tries ctr c2 hfuel hstop hkeys
    obtain ⟨f, rfl⟩ : ∃ f, fuel = f + 1 :=
      ⟨fuel - 1, by simp at hfuel; omega⟩
    have hkey0 : c2 (cacheKeyFor cfg2 offset) = some p :=
      hkeys 0 offset p (by simp [offsetsFrom]) (by simp)
    have hget : getPage oracle2 cfg2 offset tries ctr c2 =
        .ok (p, tries, ctr, c2, [.cacheHit (cacheKeyFor cfg2 offset)]) := by
      simp [getPage, hce, hkey0]
    cases rest with
    | nil =>
      have hbc : breakCond p.expContains.length (got + p.expContains.length) p.expTotal =
          true := by
        simpa [stopSpecB] using hstop
      refine ⟨[.cacheHit (cacheKeyFor cfg2 offset), .pushPage offset p], ?_, rfl⟩
      simp only [fetchLoop, hget]
      rw [if_pos hbc]
      rfl
    | cons q rest' =>
      have hsplit : breakCond p.expContains.length (got + p.expContains.length) p.expTotal =
          false ∧ stopSpecB (got + p.expContains.length) (q :: rest') = true := by
        have := hstop
        simp only [stopSpecB, Bool.and_eq_true, Bool.not_eq_true'] at this
        exact this
      obtain ⟨evs', heq, hcnt⟩ := ih f (offset + p.expContains.length)
        (got + p.expContains.length) (acc ++ [p]) tries ctr c2
        (by simp at hfuel ⊢; omega) hsplit.2
        (by
          intro i off pg hoff hpg
          exact hkeys (i + 1) off pg (by simpa [offsetsFrom] using hoff) (by simpa using hpg))
      refine ⟨[.cacheHit (cacheKeyFor cfg2 offset), .pushPage offset p] ++ evs', ?_, ?_⟩
      · simp only [fetchLoop, hget]
        rw [if_neg (by simp [hsplit.1])]
        rw [heq]
        simp
      · rw [netCallCount_append, hcnt]
        rfl

/-- C10: the cache key contains only the identifier, the
version-or-latest label, and the offset — the expansion `filter` text
is not part of the key — so after a successful run, a second run with
the SAME identifier and version but ANY other filter, starting from the
first run's cache, replays every page from the cache: it returns the
identical page list, performs zero network calls, and leaves the cache
unchanged, for every network oracle. -/
theorem c10_cache_filter_independence (oracle1 oracle2 : Nat → Resp) (cfg1 : FetchCfg)
    (f2 : Option String) (cache : CacheKey → Option VSRes) (fuel : Nat) (r1 : FetchRes)
    (ps : List VSRes)
    (hce : cfg1.cacheEnabled = true) (_hdry : cfg1.dryRun = false)
    (h1 : fetchValueSetExpansion oracle1 cfg1 cache fuel = some r1)
    (hout : r1.out = .ok ps) :
    (∀ offset : Nat, cacheKeyFor { cfg1 with filter := f2 } offset = cacheKeyFor cfg1 offset) ∧
    ∃ r2, fetchValueSetExpansion oracle2 { cfg1 with filter := f2 } r1.cache fuel = some r2 ∧
      r2.out = .ok ps ∧ r2.cache = r1.cache ∧ netCallCount r2.evs = 0 := by
  refine ⟨fun _ => rfl, ?_⟩
  obtain ⟨np, hps, hne, hstop, hpush⟩ :=
    fetchLoop_ok_spec oracle1 cfg1 fuel 0 0 [] 0 0 cache r1 ps h1 hout
  have hpsnp : ps = np := by simpa using hps
  subst hpsnp
  have hfuel : ps.length ≤ fuel := by
    have := fetchLoop_ok_fuel oracle1 cfg1 fuel 0 0 [] 0 0 cache r1 ps h1 hout
    simpa using this
  have hkeys := fetchLoop_ok_cache oracle1 cfg1 hce fuel 0 0 [] 0 0 cache r1 ps h1
    (by simpa using hout)
  obtain ⟨evs, heq, hcnt⟩ := fetchLoop_replay oracle2 { cfg1 with filter := f2 } hce ps
    fuel 0 0 [] 0 0 r1.cache hfuel hstop hkeys
  exact ⟨⟨.ok ps, r1.cache, evs, 0, 0⟩, by simpa using heq, rfl, rfl, hcnt⟩

/-- C10 witness: a one-page run with no filter populates the cache; a
rerun with filter `x` against a dead network returns the same page with
zero network calls. -/
theorem c10_witness :
    (∀ offset : Nat,
      cacheKeyFor { (⟨"1.2", none, none, 1, true, false, 3⟩ : FetchCfg) with
        filter := some "x" } offset =
      cacheKeyFor ⟨"1.2", none, none, 1, true, false, 3⟩ offset) ∧
    ∃ r2, fetchValueSetExpansion (fun _ => .netErr)
        { (⟨"1.2", none, none, 1, true, false, 3⟩ : FetchCfg) with filter := some "x" }
        ((fetchValueSetExpansion (fun _ => .ok ⟨"1.2", none, ["a"], some 1, none⟩)
          ⟨"1.2", none, none, 1, true, false, 3⟩ (fun _ => none) 2).getD
            ⟨.ok [], fun _ => none, [], 0, 0⟩).cache 2 = some r2 ∧
      r2.out = .ok [⟨"1.2", none, ["a"], some 1, none⟩] ∧
      r2.cache = ((fetchValueSetExpansion (fun _ => .ok ⟨"1.2", none, ["a"], some 1, none⟩)
          ⟨"1.2", none, none, 1, true, false, 3⟩ (fun _ => none) 2).getD
            ⟨.ok [], fun _ => none, [], 0, 0⟩).cache ∧
      netCallCount r2.evs = 0 :=
  c10_cache_filter_independence (fun _ => .ok ⟨"1.2", none, ["a"], some 1, none⟩)
    (fun _ => .netErr) ⟨"1.2", none, none, 1, true, false, 3⟩ (some "x") (fun _ => none) 2
    ((fetchValueSetExpansion (fun _ => .ok ⟨"1.2", none, ["a"], some 1, none⟩)
      ⟨"1.2", none, none, 1, true, false, 3⟩ (fun _ => none) 2).getD
        ⟨.ok [], fun _ => none, [], 0, 0⟩)
    [⟨"1.2", none, ["a"], some 1, none⟩] rfl rfl rfl rfl

theorem attemptsAt_append (o : Nat) (l1 l2 : List Ev) :
    attemptsAt o (l1 ++ l2) = attemptsAt o l1 + attemptsAt o l2 := by
  simp [attemptsAt, List.countP_append]

theorem attemptsAt_eq_zero (o : Nat) (evs : List Ev)
    (h : ∀ (u : ReqUrl) (resp : Resp), Ev.netCall u resp ∈ evs → u.offset ≠ o) :
    attemptsAt o evs = 0 := by
  rw [attemptsAt, List.countP_eq_zero]
  intro e he
  cases e
  case netCall u resp => simpa using h u resp he
  all_goals simp

theorem retryLoop_calls (oracle : Nat → Resp) (cfg : FetchCfg) (offset : Nat)
    (cache : CacheKey → Option VSRes) :
    ∀ (fuel tries ctr : Nat) (u : ReqUrl) (resp : Resp),
      Ev.netCall u resp ∈ retryOutEvs (retryLoop oracle cfg offset cache fuel tries ctr) →
      u = urlFor cfg offset := by
  intro fuel
  induction fuel with
  | zero =>
    intro tries ctr u resp hmem
    simp [retryLoop, retryOutEvs] at hmem
  | succ f ih =>
    intro tries ctr u resp hmem
    cases ho : oracle ctr with
    | ok p =>
      cases hce : cfg.cacheEnabled <;>
        simp only [retryLoop, ho, hce, Bool.false_eq_true, reduceIte, retryOutEvs,
          List.mem_cons, List.mem_singleton, List.not_mem_nil, or_false] at hmem
      · have h' : u = urlFor cfg offset ∧ resp = Resp.ok p := by simpa using hmem
        exact h'.1
      · rcases hmem with h1 | h1
        · have h' : u = urlFor cfg offset ∧ resp = Resp.ok p := by simpa using h1
          exact h'.1
        · exact absurd h1 (by simp)
    | netErr =>
      simp only [retryLoop, ho, retryOutEvs, List.mem_singleton] at hmem
      have h' : u = urlFor cfg offset ∧ resp = Resp.netErr := by simpa using hmem
      exact h'.1
    | http s =>
      by_cases hcond : (decide (500 ≤ s) || (s == 429)) = true
      · have hh : retryLoop oracle cfg offset cache (f + 1) tries ctr =
            (retryLoop oracle cfg offset cache f (tries + 1) (ctr + 1)).prependEvs
              [.netCall (urlFor cfg offset) (.http s), .sleep (1000 * 2 ^ (tries + 1))] := by
          simp [retryLoop, ho, hcond]
        rw [hh, retryOutEvs_prependEvs] at hmem
        rcases List.mem_append.mp hmem with h1 | h1
        · rcases List.mem_cons.mp h1 with h2 | h2
          · have h' : u = urlFor cfg offset ∧ resp = Resp.http s := by simpa using h2
            exact h'.1
          · exact absurd (List.mem_singleton.mp h2) (by simp)
        · exact ih (tries + 1) (ctr + 1) u resp h1
      · have hh : retryLoop oracle cfg offset cache (f + 1) tries ctr =
            .fatal (.http s) tries (ctr + 1) [.netCall (urlFor cfg offset) (.http s)] := by
          simp [retryLoop, ho, hcond]
        rw [hh] at hmem
        simp only [retryOutEvs, List.mem_singleton] at hmem
        have h' : u = urlFor cfg offset ∧ resp = Resp.http s := by simpa using hmem
        exact h'.1

theorem retryLoop_success_shape (oracle : Nat → Resp) (cfg : FetchCfg) (offset : Nat)
    (cache : CacheKey → Option VSRes) (hce : cfg.cacheEnabled = true) :
    ∀ (fuel tries ctr : Nat) (p : VSRes) (t c : Nat) (cc : CacheKey → Option VSRes)
      (evs : List Ev),
      retryLoop oracle cfg offset cache fuel tries ctr = .success p t c cc evs →
      ∃ l, evs = l ++
        [.netCall (urlFor cfg offset) (.ok p), .cacheWrite (cacheKeyFor cfg offset) p] := by
  intro fuel
  induction fuel with
  | zero =>
    intro tries ctr p t c cc evs h
    exact absurd h (by simp [retryLoop])
  | succ f ih =>
    intro tries ctr p t c cc evs h
    cases ho : oracle ctr with
    | ok q =>
      simp only [retryLoop, ho, hce, reduceIte, RetryOut.success.injEq] at h
      refine ⟨[], ?_⟩
      rw [← h.2.2.2.2, ← h.1]
      rfl
    | netErr =>
      simp only [retryLoop, ho] at h
      exact absurd h (by simp)
    | http s =>
      by_cases hcond : (decide (500 ≤ s) || (s == 429)) = true
      · have hh : retryLoop oracle cfg offset cache (f + 1) tries ctr =
            (retryLoop oracle cfg offset cache f (tries + 1) (ctr + 1)).prependEvs
              [.netCall (urlFor cfg offset) (.http s), .sleep (1000 * 2 ^ (tries + 1))] := by
          simp [retryLoop, ho, hcond]
        rw [hh] at h
        cases hrec : retryLoop oracle cfg offset cache f (tries + 1) (ctr + 1) with
        | success p' t' c' cc' evs' =>
          rw [hrec] at h
          simp only [RetryOut.prependEvs, RetryOut.success.injEq] at h
          obtain ⟨l', hl'⟩ := ih (tries + 1) (ctr + 1) p' t' c' cc' evs' hrec
          refine ⟨[.netCall (urlFor cfg offset) (.http s),
            .sleep (1000 * 2 ^ (tries + 1))] ++ l', ?_⟩
          rw [← h.2.2.2.2, ← h.1, hl']
          simp
        | fatal e t' c' evs' =>
          rw [hrec] at h
          exact absurd h (by simp [RetryOut.prependEvs])
        | exhausted t' c' evs' =>
          rw [hrec] at h
          exact absurd h (by simp [RetryOut.prependEvs])
      · have hh : retryLoop oracle cfg offset cache (f + 1) tries ctr =
            .fatal (.http s) tries (ctr + 1) [.netCall (urlFor cfg offset) (.http s)] := by
          simp [retryLoop, ho, hcond]
        rw [hh] at h
        exact absurd h (by simp)

theorem getPage_ok_calls (oracle : Nat → Resp) (cfg : FetchCfg) (offset tries ctr : Nat)
    (cache : CacheKey → Option VSRes) (p : VSRes) (t c : Nat)
    (cache' : CacheKey → Option VSRes) (evs0 : List Ev)
    (h : getPage oracle cfg offset tries ctr cache = .ok (p, t, c, cache', evs0)) :
    ∀ (u : ReqUrl) (resp : Resp), Ev.netCall u resp ∈ evs0 → u = urlFor cfg offset := by
  intro u resp hmem
  simp only [getPage] at h
  split at h
  · simp only [Except.ok.injEq, Prod.mk.injEq] at h
    rw [← h.2.2.2.2] at hmem
    simp at hmem
  · split at h
    · exact absurd h (by simp)
    · cases hrl : retryLoop oracle cfg offset cache (cfg.retry - tries) tries ctr with
      | success q t' c' cc' evs' =>
        rw [hrl] at h
        simp only [Except.ok.injEq, Prod.mk.injEq] at h
        rw [← h.2.2.2.2] at hmem
        rcases List.mem_append.mp hmem with h1 | h1
        · exact absurd h1 (by cases cfg.cacheEnabled <;> simp)
        · have := retryLoop_calls oracle cfg offset cache (cfg.retry - tries) tries ctr
            u resp
          rw [hrl] at this
          exact this h1
      | fatal e t' c' evs' => rw [hrl] at h; exact absurd h (by simp)
      | exhausted t' c' evs' => rw [hrl] at h; exact absurd h (by simp)

theorem getPage_error_calls (oracle : Nat → Resp) (cfg : FetchCfg) (offset tries ctr : Nat)
    (cache : CacheKey → Option VSRes) (e : FetchErr) (t c : Nat) (evs : List Ev)
    (h : getPage oracle cfg offset tries ctr cache = .error (e, t, c, evs)) :
    (∀ (u : ReqUrl) (resp : Resp), Ev.netCall u resp ∈ evs → u = urlFor cfg offset) ∧
    (∀ (o : Nat) (pg : VSRes), Ev.pushPage o pg ∉ evs) := by
  simp only [getPage] at h
  split at h
  · exact absurd h (by simp)
  · split at h
    · simp only [Except.error.injEq, Prod.mk.injEq] at h
      rw [← h.2.2.2]
      constructor
      · intro u resp hmem
        exact absurd hmem (by cases cfg.cacheEnabled <;> simp)
      · intro o pg hmem
        exact absurd hmem (by cases cfg.cacheEnabled <;> simp)
    · have hgen : ∀ evs' : List Ev,
          (∀ (u : ReqUrl) (resp : Resp), Ev.netCall u resp ∈ evs' →
            u = urlFor cfg offset) →
          (∀ (o : Nat) (pg : VSRes), Ev.pushPage o pg ∉ evs') →
          evs = (if cfg.cacheEnabled then [Ev.cacheMiss (cacheKeyFor cfg offset)] else [])
            ++ evs' →
          (∀ (u : ReqUrl) (resp : Resp), Ev.netCall u resp ∈ evs →
            u = urlFor cfg offset) ∧
          (∀ (o : Nat) (pg : VSRes), Ev.pushPage o pg ∉ evs) := by
        intro evs' hcalls hpush hevs
        subst hevs
        constructor
        · intro u resp hmem
          rcases List.mem_append.mp hmem with h1 | h1
          · exact absurd h1 (by cases cfg.cacheEnabled <;> simp)
          · exact hcalls u resp h1
        · intro o pg hmem
          rcases List.mem_append.mp hmem with h1 | h1
          · exact absurd h1 (by cases cfg.cacheEnabled <;> simp)
          · exact hpush o pg h1
      cases hrl : retryLoop oracle cfg offset cache (cfg.retry - tries) tries ctr with
      | success q t' c' cc' evs' => rw [hrl] at h; exact absurd h (by simp)
      | fatal e' t' c' evs' =>
        rw [hrl] at h
        simp only [Except.error.injEq, Prod.mk.injEq] at h
        refine hgen evs' ?_ ?_ h.2.2.2.symm
        · intro u resp hmem
          have := retryLoop_calls oracle cfg offset cache (cfg.retry - tries) tries ctr
            u resp
          rw [hrl] at this
          exact this hmem
        · intro o pg hmem
          have := retryLoop_no_push oracle cfg offset cache (cfg.retry - tries) tries ctr
          rw [hrl] at this
          simp only [retryOutEvs] at this
          have hpo : o ∈ pushedOffsets evs' :=
            List.mem_filterMap.mpr ⟨Ev.pushPage o pg, hmem, rfl⟩
          rw [this] at hpo
          exact absurd hpo (by simp)
      | exhausted t' c' evs' =>
        rw [hrl] at h
        simp only [Except.error.injEq, Prod.mk.injEq] at h
        refine hgen evs' ?_ ?_ h.2.2.2.symm
        · intro u resp hmem
          have := retryLoop_calls oracle cfg offset cache (cfg.retry - tries) tries ctr
            u resp
          rw [hrl] at this
          exact this hmem
        · intro o pg hmem
          have := retryLoop_no_push oracle cfg offset cache (cfg.retry - tries) tries ctr
          rw [hrl] at this
          simp only [retryOutEvs] at this
          have hpo : o ∈ pushedOffsets evs' :=
            List.mem_filterMap.mpr ⟨Ev.pushPage o pg, hmem, rfl⟩
          rw [this] at hpo
          exact absurd hpo (by simp)

theorem getPage_ok_shape (oracle : Nat → Resp) (cfg : FetchCfg) (offset tries ctr : Nat)
    (cache : CacheKey → Option VSRes) (p : VSRes) (t c : Nat)
    (cache' : CacheKey → Option VSRes) (evs0 : List Ev) (hce : cfg.cacheEnabled = true)
    (h : getPage oracle cfg offset tries ctr cache = .ok (p, t, c, cache', evs0)) :
    (cache (cacheKeyFor cfg offset) = some p ∧
      evs0 = [Ev.cacheHit (cacheKeyFor cfg offset)]) ∨
    (cache (cacheKeyFor cfg offset) = none ∧
      ∃ evs', retryLoop oracle cfg offset cache (cfg.retry - tries) tries ctr =
          .success p t c cache' evs' ∧
        evs0 = Ev.cacheMiss (cacheKeyFor cfg offset) :: evs') := by
  simp only [getPage] at h
  split at h
  · next q heq =>
    rw [hce] at heq
    simp only [reduceIte] at heq
    simp only [Except.ok.injEq, Prod.mk.injEq] at h
    left
    rw [← h.2.2.2.2, heq, h.1]
    exact ⟨rfl, rfl⟩
  · next heq =>
    rw [hce] at heq
    simp only [reduceIte] at heq
    split at h
    · exact absurd h (by simp)
    · cases hrl : retryLoop oracle cfg offset cache (cfg.retry - tries) tries ctr with
      | success q t' c' cc' evs' =>
        rw [hrl] at h
        simp only [Except.ok.injEq, Prod.mk.injEq] at h
        right
        refine ⟨heq, evs', ?_, ?_⟩
        · rw [h.1, h.2.1, h.2.2.1, h.2.2.2.1]
        · rw [← h.2.2.2.2]
          rfl
      | fatal e' t' c' evs' => rw [hrl] at h; exact absurd h (by simp)
      | exhausted t' c' evs' => rw [hrl] at h; exact absurd h (by simp)

theorem getPage_error_miss_head (oracle : Nat → Resp) (cfg : FetchCfg)
    (offset tries ctr : Nat) (cache : CacheKey → Option VSRes) (e : FetchErr) (t c : Nat)
    (evs : List Ev) (hce : cfg.cacheEnabled = true)
    (h : getPage oracle cfg offset tries ctr cache = .error (e, t, c, evs)) :
    ∃ evs', evs = Ev.cacheMiss (cacheKeyFor cfg offset) :: evs' ∧
      ∀ (u : ReqUrl) (resp : Resp), Ev.netCall u resp ∈ evs' → u = urlFor cfg offset := by
  simp only [getPage, hce, reduceIte] at h
  split at h
  · exact absurd h (by simp)
  · split at h
    · simp only [Except.error.injEq, Prod.mk.injEq] at h
      exact ⟨[], h.2.2.2.symm, by intro u resp hm; exact absurd hm (by simp)⟩
    · cases hrl : retryLoop oracle cfg offset cache (cfg.retry - tries) tries ctr with
      | success q t' c' cc' evs'' => rw [hrl] at h; exact absurd h (by simp)
      | fatal e' t' c' evs'' =>
        rw [hrl] at h
        simp only [Except.error.injEq, Prod.mk.injEq] at h
        refine ⟨evs'', h.2.2.2.symm, ?_⟩
        intro u resp hm
        have := retryLoop_calls oracle cfg offset cache (cfg.retry - tries) tries ctr u resp
        rw [hrl] at this
        exact this hm
      | exhausted t' c' evs'' =>
        rw [hrl] at h
        simp only [Except.error.injEq, Prod.mk.injEq] at h
        refine ⟨evs'', h.2.2.2.symm, ?_⟩
        intro u resp hm
        have := retryLoop_calls oracle cfg offset cache (cfg.retry - tries) tries ctr u resp
        rw [hrl] at this
        exact this hm

theorem fetchLoop_calls_ge (oracle : Nat → Resp) (cfg : FetchCfg) :
    ∀ (fuel offset got : Nat) (acc : List VSRes) (tries ctr : Nat)
      (cache : CacheKey → Option VSRes) (r : FetchRes),
      fetchLoop oracle cfg fuel offset got acc tries ctr cache = some r →
      ∀ o : Nat, o < offset → attemptsAt o r.evs = 0 := by
  intro fuel
  induction fuel with
  | zero =>
    intro offset got acc tries ctr cache r h
    simp [fetchLoop] at h
  | succ f ih =>
    intro offset got acc tries ctr cache r h o ho
    simp only [fetchLoop] at h
    cases hg : getPage oracle cfg offset tries ctr cache with
    | error e =>
      rw [hg] at h
      obtain ⟨e1, t, c, evs⟩ := e
      simp only [Option.some.injEq] at h
      rw [← h]
      exact attemptsAt_eq_zero o evs (by
        intro u resp hm
        rw [(getPage_error_calls oracle cfg offset tries ctr cache e1 t c evs hg).1
          u resp hm]
        simp [urlFor]
        omega)
    | ok tup =>
      obtain ⟨p, t, c, cache', evs0⟩ := tup
      rw [hg] at h
      simp only at h
      have hevs0 : attemptsAt o evs0 = 0 := attemptsAt_eq_zero o evs0 (by
        intro u resp hm
        rw [getPage_ok_calls oracle cfg offset tries ctr cache p t c cache' evs0 hg
          u resp hm]
        simp [urlFor]
        omega)
      by_cases hbc :
          breakCond p.expContains.length (got + p.expContains.length) p.expTotal = true
      · rw [if_pos hbc] at h
        simp only [Option.some.injEq] at h
        rw [← h]
        simp only
        rw [attemptsAt_append, hevs0]
        simp [attemptsAt]
      · rw [if_neg hbc] at h
        cases hrec : fetchLoop oracle cfg f (offset + p.expContains.length)
            (got + p.expContains.length) (acc ++ [p]) t c cache' with
        | none => rw [hrec] at h; exact absurd h (by simp)
        | some r' =>
          rw [hrec] at h
          simp only [Option.some.injEq] at h
          rw [← h]
          simp only
          rw [attemptsAt_append, attemptsAt_append, hevs0]
          have hr' := ih (offset + p.expContains.length) (got + p.expContains.length)
            (acc ++ [p]) t c cache' r' hrec o (by omega)
          rw [hr']
          simp [attemptsAt]

theorem fetchLoop_hit_no_call (oracle : Nat → Resp) (cfg : FetchCfg)
    (hce : cfg.cacheEnabled = true) :
    ∀ (fuel offset got : Nat) (acc : List VSRes) (tries ctr : Nat)
      (cache : CacheKey → Option VSRes) (r : FetchRes),
      fetchLoop oracle cfg fuel offset got acc tries ctr cache = some r →
      ∀ (o : Nat) (p : VSRes), offset ≤ o → cache (cacheKeyFor cfg o) = some p →
        attemptsAt o r.evs = 0 := by
  intro fuel
  induction fuel with
  | zero =>
    intro offset got acc tries ctr cache r h
    simp [fetchLoop] at h
  | succ f ih =>
    intro offset got acc tries ctr cache r h o p hle hcache
    by_cases hoo : o = offset
    · subst hoo
      have hget : getPage oracle cfg o tries ctr cache =
          .ok (p, tries, ctr, cache, [.cacheHit (cacheKeyFor cfg o)]) := by
        simp [getPage, hce, hcache]
      simp only [fetchLoop, hget] at h
      by_cases hbc :
          breakCond p.expContains.length (got + p.expContains.length) p.expTotal = true
      · rw [if_pos hbc] at h
        simp only [Option.some.injEq] at h
        rw [← h]
        simp [attemptsAt]
      · rw [if_neg hbc] at h
        have hc0 : p.expContains.length ≠ 0 := by
          intro hz
          rw [hz] at hbc
          simp [breakCond] at hbc
        cases hrec : fetchLoop oracle cfg f (o + p.expContains.length)
            (got + p.expContains.length) (acc ++ [p]) tries ctr cache with
        | none => rw [hrec] at h; exact absurd h (by simp)
        | some r' =>
          rw [hrec] at h
          simp only [Option.some.injEq] at h
          rw [← h]
          simp only
          rw [attemptsAt_append, attemptsAt_append]
          have hr' := fetchLoop_calls_ge oracle cfg f (o + p.expContains.length)
            (got + p.expContains.length) (acc ++ [p]) tries ctr cache r' hrec o (by omega)
          rw [hr']
          simp [attemptsAt]
    · have hlt : offset < o := by omega
      simp only [fetchLoop] at h
      cases hg : getPage oracle cfg offset tries ctr cache with
      | error e =>
        rw [hg] at h
        obtain ⟨e1, t, c, evs⟩ := e
        simp only [Option.some.injEq] at h
        rw [← h]
        exact attemptsAt_eq_zero o evs (by
          intro u resp hm
          rw [(getPage_error_calls oracle cfg offset tries ctr cache e1 t c evs hg).1
            u resp hm]
          simp [urlFor]
          omega)
      | ok tup =>
        obtain ⟨pp, t, c, cache', evs0⟩ := tup
        rw [hg] at h
        simp only at h
        have hevs0 : attemptsAt o evs0 = 0 := attemptsAt_eq_zero o evs0 (by
          intro u resp hm
          rw [getPage_ok_calls oracle cfg offset tries ctr cache pp t c cache' evs0 hg
            u resp hm]
          simp [urlFor]
          omega)
        have hcache' : cache' (cacheKeyFor cfg o) = some p := by
          rw [(getPage_cache oracle cfg offset tries ctr cache pp t c cache' evs0 hg).1
            o (by omega)]
          exact hcache
        by_cases hbc :
            breakCond pp.expContains.length (got + pp.expContains.length) pp.expTotal =
              true
        · rw [if_pos hbc] at h
          simp only [Option.some.injEq] at h
          rw [← h]
          simp only
          rw [attemptsAt_append, hevs0]
          simp [attemptsAt]
        · rw [if_neg hbc] at h
          cases hrec : fetchLoop oracle cfg f (offset + pp.expContains.length)
              (got + pp.expContains.length) (acc ++ [pp]) t c cache' with
          | none => rw [hrec] at h; exact absurd h (by simp)
          | some r' =>
            rw [hrec] at h
            simp only [Option.some.injEq] at h
            rw [← h]
            simp only
            rw [attemptsAt_append, attemptsAt_append, hevs0]
            have hr' : attemptsAt o r'.evs = 0 := by
              by_cases hge : offset + pp.expContains.length ≤ o
              · exact ih (offset + pp.expContains.length) (got + pp.expContains.length)
                  (acc ++ [pp]) t c cache' r' hrec o p hge hcache'
              · exact fetchLoop_calls_ge oracle cfg f (offset + pp.expContains.length)
                  (got + pp.expContains.length) (acc ++ [pp]) t c cache' r' hrec o
                  (by omega)
            rw [hr']
            simp [attemptsAt]

theorem fetchLoop_consult (oracle : Nat → Resp) (cfg : FetchCfg)
    (hce : cfg.cacheEnabled = true) :
    ∀ (fuel offset got : Nat) (acc : List VSRes) (tries ctr : Nat)
      (cache : CacheKey → Option VSRes) (r : FetchRes),
      fetchLoop oracle cfg fuel offset got acc tries ctr cache = some r →
      ∀ (u : ReqUrl) (resp : Resp), Ev.netCall u resp ∈ r.evs →
        ∃ l1 l2, r.evs = l1 ++ Ev.cacheMiss (cacheKeyFor cfg u.offset) :: l2 ∧
          Ev.netCall u resp ∈ l2 := by
  intro fuel
  induction fuel with
  | zero =>
    intro offset got acc tries ctr cache r h
    simp [fetchLoop] at h
  | succ f ih =>
    intro offset got acc tries ctr cache r h u resp hmem
    simp only [fetchLoop] at h
    cases hg : getPage oracle cfg offset tries ctr cache with
    | error e =>
      rw [hg] at h
      obtain ⟨e1, t, c, evs⟩ := e
      simp only [Option.some.injEq] at h
      rw [← h] at hmem ⊢
      simp only at hmem ⊢
      obtain ⟨evs', hevs, hcalls⟩ := getPage_error_miss_head oracle cfg offset tries ctr
        cache e1 t c evs hce hg
      subst hevs
      rcases List.mem_cons.mp hmem with h1 | h1
      · exact absurd h1 (by simp)
      · have hu := hcalls u resp h1
        refine ⟨[], evs', ?_, h1⟩
        rw [hu]
        rfl
    | ok tup =>
      obtain ⟨p, t, c, cache', evs0⟩ := tup
      rw [hg] at h
      simp only at h
      rcases getPage_ok_shape oracle cfg offset tries ctr cache p t c cache' evs0 hce hg
        with ⟨_, hevs0⟩ | ⟨_, evs', hrl, hevs0⟩
      · -- cache hit: evs0 is a single cacheHit event, no net call in it
        by_cases hbc :
            breakCond p.expContains.length (got + p.expContains.length) p.expTotal = true
        · rw [if_pos hbc] at h
          simp only [Option.some.injEq] at h
          rw [← h] at hmem
          simp only at hmem
          rw [hevs0] at hmem
          simp at hmem
        · rw [if_neg hbc] at h
          cases hrec : fetchLoop oracle cfg f (offset + p.expContains.length)
              (got + p.expContains.length) (acc ++ [p]) t c cache' with
          | none => rw [hrec] at h; exact absurd h (by simp)
          | some r' =>
            rw [hrec] at h
            simp only [Option.some.injEq] at h
            rw [← h] at hmem ⊢
            simp only at hmem ⊢
            rcases List.mem_append.mp hmem with h1 | h1
            · rw [hevs0] at h1
              simp at h1
            · obtain ⟨l1, l2, hsplit, hmem2⟩ := ih (offset + p.expContains.length)
                (got + p.expContains.length) (acc ++ [p]) t c cache' r' hrec u resp h1
              refine ⟨(evs0 ++ [Ev.pushPage offset p]) ++ l1, l2, ?_, hmem2⟩
              rw [hsplit]
              simp
      · -- cache miss: evs0 starts with the cacheMiss event
        have hcalls := getPage_ok_calls oracle cfg offset tries ctr cache p t c cache'
          evs0 hg
        by_cases hbc :
            breakCond p.expContains.length (got + p.expContains.length) p.expTotal = true
        · rw [if_pos hbc] at h
          simp only [Option.some.injEq] at h
          rw [← h] at hmem ⊢
          simp only at hmem ⊢
          rcases List.mem_append.mp hmem with h1 | h1
          · have hu := hcalls u resp h1
            rw [hevs0] at h1
            rcases List.mem_cons.mp h1 with h2 | h2
            · exact absurd h2 (by simp)
            · refine ⟨[], evs' ++ [Ev.pushPage offset p], ?_, by simp [h2]⟩
              rw [hevs0, hu]
              simp [urlFor]
          · exact absurd (List.mem_singleton.mp h1) (by simp)
        · rw [if_neg hbc] at h
          cases hrec : fetchLoop oracle cfg f (offset + p.expContains.length)
              (got + p.expContains.length) (acc ++ [p]) t c cache' with
          | none => rw [hrec] at h; exact absurd h (by simp)
          | some r' =>
            rw [hrec] at h
            simp only [Option.some.injEq] at h
            rw [← h] at hmem ⊢
            simp only at hmem ⊢
            rcases List.mem_append.mp hmem with h1 | h1
            · rcases List.mem_append.mp h1 with h2 | h2
              · have hu := hcalls u resp h2
                rw [hevs0] at h2
                rcases List.mem_cons.mp h2 with h3 | h3
                · exact absurd h3 (by simp)
                · refine ⟨[], evs' ++ [Ev.pushPage offset p] ++ r'.evs, ?_,
                    by simp [h3]⟩
                  rw [hevs0, hu]
                  simp [urlFor]
              · exact absurd (List.mem_singleton.mp h2) (by simp)
            · obtain ⟨l1, l2, hsplit, hmem2⟩ := ih (offset + p.expContains.length)
                (got + p.expContains.length) (acc ++ [p]) t c cache' r' hrec u resp h1
              refine ⟨(evs0 ++ [Ev.pushPage offset p]) ++ l1, l2, ?_, hmem2⟩
              rw [hsplit]
              simp

theorem fetchLoop_write_before_push (oracle : Nat → Resp) (cfg : FetchCfg)
    (hce : cfg.cacheEnabled = true) :
    ∀ (fuel offset got : Nat) (acc : List VSRes) (tries ctr : Nat)
      (cache : CacheKey → Option VSRes) (r : FetchRes),
      fetchLoop oracle cfg fuel offset got acc tries ctr cache = some r →
      ∀ (o : Nat) (pg : VSRes), Ev.pushPage o pg ∈ r.evs →
        Ev.cacheHit (cacheKeyFor cfg o) ∈ r.evs ∨
        ∃ l1 l2, r.evs = l1 ++ Ev.cacheWrite (cacheKeyFor cfg o) pg :: l2 ∧
          Ev.pushPage o pg ∈ l2 := by
  intro fuel
  induction fuel with
  | zero =>
    intro offset got acc tries ctr cache r h
    simp [fetchLoop] at h
  | succ f ih =>
    intro offset got acc tries ctr cache r h o pg hmem
    simp only [fetchLoop] at h
    cases hg : getPage oracle cfg offset tries ctr cache with
    | error e =>
      rw [hg] at h
      obtain ⟨e1, t, c, evs⟩ := e
      simp only [Option.some.injEq] at h
      rw [← h] at hmem
      simp only at hmem
      exact absurd hmem ((getPage_error_calls oracle cfg offset tries ctr cache
        e1 t c evs hg).2 o pg)
    | ok tup =>
      obtain ⟨p, t, c, cache', evs0⟩ := tup
      rw [hg] at h
      simp only at h
      have hnp : ∀ (o' : Nat) (pg' : VSRes), Ev.pushPage o' pg' ∉ evs0 := by
        intro o' pg' hm
        have h0 := getPage_ok_no_push oracle cfg offset tries ctr cache p t c cache'
          evs0 hg
        have : o' ∈ pushedOffsets evs0 :=
          List.mem_filterMap.mpr ⟨Ev.pushPage o' pg', hm, rfl⟩
        rw [h0] at this
        exact absurd this (by simp)
      rcases getPage_ok_shape oracle cfg offset tries ctr cache p t c cache' evs0 hce hg
        with ⟨_, hevs0⟩ | ⟨_, evs', hrl, hevs0⟩
      · -- hit case
        by_cases hbc :
            breakCond p.expContains.length (got + p.expContains.length) p.expTotal = true
        · rw [if_pos hbc] at h
          simp only [Option.some.injEq] at h
          rw [← h] at hmem ⊢
          simp only at hmem ⊢
          rcases List.mem_append.mp hmem with h1 | h1
          · exact absurd h1 (hnp o pg)
          · have h2 := List.mem_singleton.mp h1
            injection h2 with hoo hpp
            left
            rw [hevs0, hoo]
            simp
        · rw [if_neg hbc] at h
          cases hrec : fetchLoop oracle cfg f (offset + p.expContains.length)
              (got + p.expContains.length) (acc ++ [p]) t c cache' with
          | none => rw [hrec] at h; exact absurd h (by simp)
          | some r' =>
            rw [hrec] at h
            simp only [Option.some.injEq] at h
            rw [← h] at hmem ⊢
            simp only at hmem ⊢
            rcases List.mem_append.mp hmem with h1 | h1
            · rcases List.mem_append.mp h1 with h2 | h2
              · exact absurd h2 (hnp o pg)
              · have h3 := List.mem_singleton.mp h2
                injection h3 with hoo hpp
                left
                rw [hevs0, hoo]
                simp
            · rcases ih (offset + p.expContains.length) (got + p.expContains.length)
                (acc ++ [p]) t c cache' r' hrec o pg h1 with hl | ⟨l1, l2, hsplit, hm2⟩
              · left
                simp [hl]
              · right
                refine ⟨(evs0 ++ [Ev.pushPage offset p]) ++ l1, l2, ?_, hm2⟩
                rw [hsplit]
                simp
      · -- miss case: the page was fetched and written to the cache
        obtain ⟨l, hl⟩ := retryLoop_success_shape oracle cfg offset cache hce
          (cfg.retry - tries) tries ctr p t c cache' evs' hrl
        by_cases hbc :
            breakCond p.expContains.length (got + p.expContains.length) p.expTotal = true
        · rw [if_pos hbc] at h
          simp only [Option.some.injEq] at h
          rw [← h] at hmem ⊢
          simp only at hmem ⊢
          rcases List.mem_append.mp hmem with h1 | h1
          · exact absurd h1 (hnp o pg)
          · have h2 := List.mem_singleton.mp h1
            injection h2 with hoo hpp
            right
            refine ⟨Ev.cacheMiss (cacheKeyFor cfg offset) ::
              (l ++ [Ev.netCall (urlFor cfg offset) (.ok p)]),
              [Ev.pushPage offset p], ?_, by simp [hoo, hpp]⟩
            rw [hoo, hpp, hevs0, hl]
            simp
        · rw [if_neg hbc] at h
          cases hrec : fetchLoop oracle cfg f (offset + p.expContains.length)
              (got + p.expContains.length) (acc ++ [p]) t c cache' with
          | none => rw [hrec] at h; exact absurd h (by simp)
          | some r' =>
            rw [hrec] at h
            simp only [Option.some.injEq] at h
            rw [← h] at hmem ⊢
            simp only at hmem ⊢
            rcases List.mem_append.mp hmem with h1 | h1
            · rcases List.mem_append.mp h1 with h2 | h2
              · exact absurd h2 (hnp o pg)
              · have h3 := List.mem_singleton.mp h2
                injection h3 with hoo hpp
                right
                refine ⟨Ev.cacheMiss (cacheKeyFor cfg offset) ::
                  (l ++ [Ev.netCall (urlFor cfg offset) (.ok p)]),
                  Ev.pushPage offset p :: r'.evs, ?_, by simp [hoo, hpp]⟩
                rw [hoo, hpp, hevs0, hl]
                simp
            · rcases ih (offset + p.expContains.length) (got + p.expContains.length)
                (acc ++ [p]) t c cache' r' hrec o pg h1 with hl2 | ⟨l1, l2, hsplit, hm2⟩
              · left
                simp [hl2]
              · right
                refine ⟨(evs0 ++ [Ev.pushPage offset p]) ++ l1, l2, ?_, hm2⟩
                rw [hsplit]
                simp

/-- C7: with caching enabled, (i) a page whose key is in the cache
before the run is never fetched from the network — zero network
attempts are made for that offset; (ii) every network call for a key is
preceded in the trace by a cache-miss consult event for exactly that
key; (iii) every page that enters the page list was either served from
the cache (a hit event for its key exists) or was written to its cache
file immediately on receipt, BEFORE its push into the page list that is
later handed to the merger; and (iv) the merger runs only after the
fetch stage: the job trace ends with the merge event followed by the
output-file write, with no cache write after the merge. -/
theorem c7_cache_discipline :
    (∀ (oracle : Nat → Resp) (cfg : FetchCfg) (cache : CacheKey → Option VSRes)
        (fuel : Nat) (r : FetchRes),
      cfg.cacheEnabled = true →
      fetchValueSetExpansion oracle cfg cache fuel = some r →
      (∀ (o : Nat) (p : VSRes), cache (cacheKeyFor cfg o) = some p →
        attemptsAt o r.evs = 0) ∧
      (∀ (u : ReqUrl) (resp : Resp), Ev.netCall u resp ∈ r.evs →
        ∃ l1 l2, r.evs = l1 ++ Ev.cacheMiss (cacheKeyFor cfg u.offset) :: l2 ∧
          Ev.netCall u resp ∈ l2) ∧
      (∀ (o : Nat) (pg : VSRes), Ev.pushPage o pg ∈ r.evs →
        Ev.cacheHit (cacheKeyFor cfg o) ∈ r.evs ∨
        ∃ l1 l2, r.evs = l1 ++ Ev.cacheWrite (cacheKeyFor cfg o) pg :: l2 ∧
          Ev.pushPage o pg ∈ l2)) ∧
    (∀ (defOracle : Resp) (oracle : Nat → Resp) (opts : JobOpts)
        (cache : CacheKey → Option VSRes) (fuel : Nat) (id oid : String)
        (fr : FetchRes) (pages : List VSRes) (m : VSRes),
      opts.mode = .expansion → opts.dryRun = false →
      normalizeVsacId id = .ok oid →
      fetchValueSetExpansion oracle (fetchCfgOf opts oid) cache fuel = some fr →
      fr.out = .ok pages →
      mergeExpansionPages pages = .ok m →
      ∃ v w, runJob defOracle oracle opts cache fuel id =
          some ⟨.ok ⟨oid, none, some m, some v⟩, fr.evs ++ [Ev.mergedEv m, w], fr.cache⟩ ∧
        isCacheWriteEv w = false ∧ isFileWriteEv w = true) := by
  constructor
  · intro oracle cfg cache fuel r hce hr
    refine ⟨?_, ?_, ?_⟩
    · intro o p hcache
      exact fetchLoop_hit_no_call oracle cfg hce fuel 0 0 [] 0 0 cache r hr o p
        (Nat.zero_le o) hcache
    · intro u resp hmem
      exact fetchLoop_consult oracle cfg hce fuel 0 0 [] 0 0 cache r hr u resp hmem
    · intro o pg hmem
      exact fetchLoop_write_before_push oracle cfg hce fuel 0 0 [] 0 0 cache r hr o pg
        hmem
  · intro defOracle oracle opts cache fuel id oid fr pages m hm hdry hid hfetch hfr hmerge
    refine ⟨jsOrS (some (deriveVsacVersion m)) (jsOrS none (jsOrS opts.version "unknown")),
      writeValueSetFiles opts.out oid
        (jsOrS (some (deriveVsacVersion m)) (jsOrS none (jsOrS opts.version "unknown")))
        m "expanded", ?_, rfl, rfl⟩
    simp only [runJob, hid, hm, hdry, hfetch, hfr, hmerge]
    simp
    rw [hmerge]

/-- C7 witness: the cache-discipline theorem at a two-page run whose
first page is pre-seeded in the cache and whose second page comes from
the network, followed by the merge of the two pages in expansion
mode. -/
theorem c7_witness :
    ((∀ (o : Nat) (p : VSRes),
        (fun k => if k = (⟨"1.2", "latest", 0⟩ : CacheKey)
          then some (⟨"1.2", none, ["a"], some 2, none⟩ : VSRes) else none)
          (cacheKeyFor ⟨"1.2", none, none, 1, true, false, 3⟩ o) = some p →
        attemptsAt o ((fetchValueSetExpansion
          (fun _ => .ok ⟨"1.2", none, ["b"], some 2, none⟩)
          ⟨"1.2", none, none, 1, true, false, 3⟩
          (fun k => if k = (⟨"1.2", "latest", 0⟩ : CacheKey)
            then some (⟨"1.2", none, ["a"], some 2, none⟩ : VSRes) else none) 3).getD
              ⟨.ok [], fun _ => none, [], 0, 0⟩).evs = 0) ∧
      (∀ (u : ReqUrl) (resp : Resp),
        Ev.netCall u resp ∈ ((fetchValueSetExpansion
          (fun _ => .ok ⟨"1.2", none, ["b"], some 2, none⟩)
          ⟨"1.2", none, none, 1, true, false, 3⟩
          (fun k => if k = (⟨"1.2", "latest", 0⟩ : CacheKey)
            then some (⟨"1.2", none, ["a"], some 2, none⟩ : VSRes) else none) 3).getD
              ⟨.ok [], fun _ => none, [], 0, 0⟩).evs →
        ∃ l1 l2, ((fetchValueSetExpansion
          (fun _ => .ok ⟨"1.2", none, ["b"], some 2, none⟩)
          ⟨"1.2", none, none, 1, true, false, 3⟩
          (fun k => if k = (⟨"1.2", "latest", 0⟩ : CacheKey)
            then some (⟨"1.2", none, ["a"], some 2, none⟩ : VSRes) else none) 3).getD
              ⟨.ok [], fun _ => none, [], 0, 0⟩).evs =
            l1 ++ Ev.cacheMiss (cacheKeyFor ⟨"1.2", none, none, 1, true, false, 3⟩
              u.offset) :: l2 ∧
          Ev.netCall u resp ∈ l2) ∧
      (∀ (o : Nat) (pg : VSRes),
        Ev.pushPage o pg ∈ ((fetchValueSetExpansion
          (fun _ => .ok ⟨"1.2", none, ["b"], some 2, none⟩)
          ⟨"1.2", none, none, 1, true, false, 3⟩
          (fun k => if k = (⟨"1.2", "latest", 0⟩ : CacheKey)
            then some (⟨"1.2", none, ["a"], some 2, none⟩ : VSRes) else none) 3).getD
              ⟨.ok [], fun _ => none, [], 0, 0⟩).evs →
        Ev.cacheHit (cacheKeyFor ⟨"1.2", none, none, 1, true, false, 3⟩ o) ∈
          ((fetchValueSetExpansion
            (fun _ => .ok ⟨"1.2", none, ["b"], some 2, none⟩)
            ⟨"1.2", none, none, 1, true, false, 3⟩
            (fun k => if k = (⟨"1.2", "latest", 0⟩ : CacheKey)
              then some (⟨"1.2", none, ["a"], some 2, none⟩ : VSRes) else none) 3).getD
                ⟨.ok [], fun _ => none, [], 0, 0⟩).evs ∨
        ∃ l1 l2, ((fetchValueSetExpansion
          (fun _ => .ok ⟨"1.2", none, ["b"], some 2, none⟩)
          ⟨"1.2", none, none, 1, true, false, 3⟩
          (fun k => if k = (⟨"1.2", "latest", 0⟩ : CacheKey)
            then some (⟨"1.2", none, ["a"], some 2, none⟩ : VSRes) else none) 3).getD
              ⟨.ok [], fun _ => none, [], 0, 0⟩).evs =
            l1 ++ Ev.cacheWrite (cacheKeyFor ⟨"1.2", none, none, 1, true, false, 3⟩ o)
              pg :: l2 ∧
          Ev.pushPage o pg ∈ l2)) ∧
    (∃ v w, runJob .netErr (fun _ => .ok ⟨"1.2", none, ["b"], some 2, none⟩)
        ⟨.expansion, none, none, "out", 1, true, false, 3⟩
        (fun k => if k = (⟨"1.2", "latest", 0⟩ : CacheKey)
          then some (⟨"1.2", none, ["a"], some 2, none⟩ : VSRes) else none) 3 "1.2" =
        some ⟨.ok ⟨"1.2", none, some ⟨"1.2", none, ["a", "b"], some 2, none⟩, some v⟩,
          ((fetchValueSetExpansion
            (fun _ => .ok ⟨"1.2", none, ["b"], some 2, none⟩)
            (fetchCfgOf ⟨.expansion, none, none, "out", 1, true, false, 3⟩ "1.2")
            (fun k => if k = (⟨"1.2", "latest", 0⟩ : CacheKey)
              then some (⟨"1.2", none, ["a"], some 2, none⟩ : VSRes) else none) 3).getD
                ⟨.ok [], fun _ => none, [], 0, 0⟩).evs ++
            [Ev.mergedEv ⟨"1.2", none, ["a", "b"], some 2, none⟩, w],
          ((fetchValueSetExpansion
            (fun _ => .ok ⟨"1.2", none, ["b"], some 2, none⟩)
            (fetchCfgOf ⟨.expansion, none, none, "out", 1, true, false, 3⟩ "1.2")
            (fun k => if k = (⟨"1.2", "latest", 0⟩ : CacheKey)
              then some (⟨"1.2", none, ["a"], some 2, none⟩ : VSRes) else none) 3).getD
                ⟨.ok [], fun _ => none, [], 0, 0⟩).cache⟩ ∧
      isCacheWriteEv w = false ∧ isFileWriteEv w = true) :=
  ⟨c7_cache_discipline.1 (fun _ => .ok ⟨"1.2", none, ["b"], some 2, none⟩)
      ⟨"1.2", none, none, 1, true, false, 3⟩
      (fun k => if k = (⟨"1.2", "latest", 0⟩ : CacheKey)
        then some (⟨"1.2", none, ["a"], some 2, none⟩ : VSRes) else none) 3
      ((fetchValueSetExpansion (fun _ => .ok ⟨"1.2", none, ["b"], some 2, none⟩)
        ⟨"1.2", none, none, 1, true, false, 3⟩
        (fun k => if k = (⟨"1.2", "latest", 0⟩ : CacheKey)
          then some (⟨"1.2", none, ["a"], some 2, none⟩ : VSRes) else none) 3).getD
            ⟨.ok [], fun _ => none, [], 0, 0⟩) rfl rfl,
   c7_cache_discipline.2 .netErr (fun _ => .ok ⟨"1.2", none, ["b"], some 2, none⟩)
      ⟨.expansion, none, none, "out", 1, true, false, 3⟩
      (fun k => if k = (⟨"1.2", "latest", 0⟩ : CacheKey)
        then some (⟨"1.2", none, ["a"], some 2, none⟩ : VSRes) else none) 3 "1.2" "1.2"
      ((fetchValueSetExpansion (fun _ => .ok ⟨"1.2", none, ["b"], some 2, none⟩)
        (fetchCfgOf ⟨.expansion, none, none, "out", 1, true, false, 3⟩ "1.2")
        (fun k => if k = (⟨"1.2", "latest", 0⟩ : CacheKey)
          then some (⟨"1.2", none, ["a"], some 2, none⟩ : VSRes) else none) 3).getD
            ⟨.ok [], fun _ => none, [], 0, 0⟩)
      [⟨"1.2", none, ["a"], some 2, none⟩, ⟨"1.2", none, ["b"], some 2, none⟩]
      ⟨"1.2", none, ["a", "b"], some 2, none⟩ rfl rfl rfl rfl rfl rfl⟩

/-- C6, counterexample: two fetch runs whose retries are exhausted with
DIFFERENT last observed transport errors (a 503 response versus a 429
response) fail with the IDENTICAL error value
`Failed to fetch expansion after 1 retries.` — so the error cannot
carry the last observed underlying error, contrary to the claim. -/
theorem c6_counterexample :
    fetchOut (fetchValueSetExpansion (fun _ => .http 503)
      ⟨"1.2", none, none, 1000, false, false, 1⟩ (fun _ => none) 3) =
        some (.error (.retryExhausted 1)) ∧
    fetchOut (fetchValueSetExpansion (fun _ => .http 429)
      ⟨"1.2", none, none, 1000, false, false, 1⟩ (fun _ => none) 3) =
        some (.error (.retryExhausted 1)) ∧
    (Resp.http 503 ≠ Resp.http 429) :=
  ⟨rfl, rfl, by decide⟩

/-- C6, amended: when every allowed attempt of the expansion fetch
fails with a retryable error, the fetch fails with the fixed
`Failed to fetch expansion after N retries.` error carrying only the
CONFIGURED retry maximum; the last observed underlying error is
discarded (see the counterexample). -/
theorem c6_retry_exhausted_amended (oracle : Nat → Resp) (cfg : FetchCfg)
    (cache : CacheKey → Option VSRes) (fuel : Nat)
    (hmiss : (if cfg.cacheEnabled then cache (cacheKeyFor cfg 0) else none) = none)
    (hdry : cfg.dryRun = false)
    (hretry : ∀ i, i < cfg.retry → retryable (oracle i) = true) :
    fetchOut (fetchValueSetExpansion oracle cfg cache (fuel + 1)) =
      some (.error (.retryExhausted cfg.retry)) := by
  obtain ⟨evs, he⟩ := retryLoop_all_retryable oracle cfg 0 cache cfg.retry 0 0
    (by intro i hi; simpa using hretry i hi)
  have hbudget : cfg.retry - 0 = cfg.retry := by omega
  simp only [fetchValueSetExpansion, fetchLoop, getPage, hmiss, hdry, hbudget,
    Bool.false_eq_true, if_false, he, fetchOut]
  simp

/-- C6 witness: the amended theorem at a concrete run — two allowed
attempts, both failing with 503, ending in
`Failed to fetch expansion after 2 retries.`. -/
theorem c6_witness :
    fetchOut (fetchValueSetExpansion (fun _ => .http 503)
      ⟨"1.2", none, none, 1000, false, false, 2⟩ (fun _ => none) 2) =
        some (.error (.retryExhausted 2)) :=
  c6_retry_exhausted_amended (fun _ => .http 503)
    ⟨"1.2", none, none, 1000, false, false, 2⟩ (fun _ => none) 1
    rfl rfl (by intro i _; rfl)

end ComplyLight
